import Mathlib

/-!
Shallow embedding, in Lean 4, of the maze generation engine of the
`maze-dataset` repository (`src/maze_dataset/generation/generators.py`),
together with theorems settling the specification claims about it.

Conventions of the embedding:
* Python/numpy integers are `ℤ` (coordinates) or `ℕ` (sizes, counts);
  Python floats compared against `[0, 1]` probabilities are `ℚ`.
* The `(2, rows, cols)` boolean `connection_list` array is a total function
  `ℕ → ℤ → ℤ → Bool`; the generators only ever write in-range entries
  (proved where a claim needs it).
* Randomness is an explicit stream: integer draws are a stream `ℕ → ℕ`
  (a call of `random.randint(0, k)` or an index draw of `random.choice`
  reads the head modulo the range size, exactly the support of the Python
  call), float draws of `np.random.rand` are a stream `ℕ → ℚ`.
* Unbounded `while` loops are embedded with explicit fuel returning
  `Option`; for the DFS generator the fuel needed is computed from a
  termination measure and sufficiency is proved, making `gen_dfs` total.
-/

namespace MazeGen

/-- Grid coordinate `(row, col)`; Python integers, so `ℤ × ℤ`. -/
abbrev Coord := ℤ × ℤ

/-- The `connection_list` array: `cl d r c` is `connection_list[d, r, c]`. -/
abbrev ConnList := ℕ → ℤ → ℤ → Bool

/-- Stream of integer random draws. -/
abbrev RngI := ℕ → ℕ

/-- Drop the first draw of an integer random stream. -/
def rngTail (g : RngI) : RngI := fun n => g (n + 1)

/-- Drop the first two draws of an integer random stream. -/
def rngTail2 (g : RngI) : RngI := rngTail (rngTail g)

/-- The coordinate `(v.1, v.2)` indexes a cell of a `rows × cols` grid. -/
abbrev inBounds (rows cols : ℕ) (v : Coord) : Prop :=
  0 ≤ v.1 ∧ v.1 < (rows : ℤ) ∧ 0 ≤ v.2 ∧ v.2 < (cols : ℤ)

/-- Embeds `_random_start_coord` for `start_coord=None`
(`generators.py` lines 11-21): `np.random.randint(0, np.maximum(grid_shape - 1, 1),
size=2)` draws each component uniformly from the half-open range
`[0, max(dim - 1, 1))`; the draw is modelled as `v % max (dim - 1) 1`,
which has exactly the support of the numpy call. -/
def randomStartCoord (rows cols : ℕ) (g : RngI) : Coord :=
  (((g 0 % max (rows - 1) 1 : ℕ) : ℤ), ((g 1 % max (cols - 1) 1 : ℕ) : ℤ))

/-- Embeds the `_random_start_coord` dispatch: an explicit `start_coord`
is used unchanged (no bounds check in the source), `None` triggers the
random draw, consuming two stream values. -/
def resolveStart (rows cols : ℕ) (start : Option Coord) (g : RngI) : Coord × RngI :=
  match start with
  | some s => (s, g)
  | none => (randomStartCoord rows cols g, rngTail2 g)

/-- Write `True` into one `connection_list` entry:
`connection_list[d, node.1, node.2] = True`. -/
def setCL (cl : ConnList) (d : ℕ) (node : Coord) : ConnList :=
  fun d' r c => if d' = d ∧ r = node.1 ∧ c = node.2 then true else cl d' r c

/-- The boundary-wall invariant of §4.1/§8 of the spec:
`connection_list[0, rows-1, :]` and `connection_list[1, :, cols-1]` are all
`False`. -/
def bdInv (rows cols : ℕ) (cl : ConnList) : Prop :=
  (∀ c : ℕ, c < cols → cl 0 ((rows : ℤ) - 1) (c : ℤ) = false) ∧
  (∀ r : ℕ, r < rows → cl 1 (r : ℤ) ((cols : ℤ) - 1) = false)

/-- Index triples of the `(2, rows, cols)` array. -/
def allEntries (rows cols : ℕ) : Finset (ℕ × ℕ × ℕ) :=
  (Finset.range 2) ×ˢ (Finset.range rows) ×ˢ (Finset.range cols)

/-- Number of open edges: count of `True` entries of the array. -/
def openEdgeCount (rows cols : ℕ) (cl : ConnList) : ℕ :=
  ((allEntries rows cols).filter
    (fun t => cl t.1 (t.2.1 : ℤ) (t.2.2 : ℤ) = true)).card

/-- Indicator of a boolean. -/
def b2n (b : Bool) : ℕ := if b then 1 else 0

/-- Open-edge degree of a cell: the up, down, left and right edges incident
to it, read off the canonical `connection_list` entries. -/
def degB (cl : ConnList) (v : Coord) : ℕ :=
  b2n (cl 0 (v.1 - 1) v.2) + b2n (cl 0 v.1 v.2) +
  b2n (cl 1 v.1 (v.2 - 1)) + b2n (cl 1 v.1 v.2)

/-- Cells `a` and `b` are joined by an open edge: the entry
`connection_list[0, r, c]` joins `(r, c)` and `(r+1, c)`, the entry
`connection_list[1, r, c]` joins `(r, c)` and `(r, c+1)`, in both
directions. -/
def adjOpen (cl : ConnList) (a b : Coord) : Bool :=
  (decide (b.1 = a.1 + 1 ∧ b.2 = a.2) && cl 0 a.1 a.2) ||
  (decide (b.1 = a.1 - 1 ∧ b.2 = a.2) && cl 0 b.1 b.2) ||
  (decide (b.2 = a.2 + 1 ∧ b.1 = a.1) && cl 1 a.1 a.2) ||
  (decide (b.2 = a.2 - 1 ∧ b.1 = a.1) && cl 1 b.1 b.2)

/-- Modelled from the spec: the connected-component walker
(`LatticeMaze.gen_connected_component_from`, in `maze/lattice_maze.py`,
which is not under `src/`). Per §4.2 it returns "the set of coordinates
reachable from the start by traversing only open edges (undirected)";
it is embedded as exactly that set. -/
def reachableFrom (cl : ConnList) (start : Coord) : Set Coord :=
  {c | Relation.ReflTransGen (fun a b => adjOpen cl a b = true) start c}

/-- Modelled from the spec: `_fill_edges_with_walls`
(in `maze/lattice_maze.py`, not under `src/`). Per §4.1 it forces the two
boundary slices `connection_list[0, rows-1, :]` and
`connection_list[1, :, cols-1]` to `False` and preserves every other
value. -/
def fillEdges (rows cols : ℕ) (cl : ConnList) : ConnList :=
  fun d r c =>
    if (d = 0 ∧ r = (rows : ℤ) - 1) ∨ (d = 1 ∧ c = (cols : ℤ) - 1) then false
    else cl d r c

/-- Modelled from the spec: `NEIGHBORS_MASK`
(in `maze/lattice_maze.py`, not under `src/`), "the fixed 4-neighbor
offset set". The order is irrelevant to every claim: the claims either
quantify over the whole random stream or fix a concrete stream. -/
def NEIGHBORS_MASK : List Coord := [(1, 0), (-1, 0), (0, 1), (0, -1)]

/-- The `LatticeMaze` value: the connection list plus the
`generation_meta` dict, with one optional field per metadata key.
The walker-recomputed `visited_cells` of the percolation generators is
kept in its own field `visitedComponent` because it holds a reachable-set
(a `Set`), while `gen_dfs` stores the finite visited set built by its
loop. -/
structure LatticeMaze where
  rows : ℕ
  cols : ℕ
  cl : ConnList
  funcName : String
  startCoord : Option Coord := none
  nAccessibleCells : Option ℕ := none
  maxTreeDepth : Option ℕ := none
  fullyConnected : Option Bool := none
  visitedCells : Option (Finset Coord) := none
  visitedComponent : Option (Set Coord) := none
  percolationP : Option ℚ := none

/-! ### The DFS generator (`LatticeMazeGenerators.gen_dfs`, lines 27-144) -/

/-- Embeds the unvisited in-bounds neighbor filter of `gen_dfs`
(lines 92-102): pairs `(neighbor, delta)` over `NEIGHBORS_MASK`, keeping
neighbors that are unvisited and inside the grid. -/
def unvisitedNeighbors (rows cols : ℕ) (visited : Finset Coord) (cur : Coord) :
    List (Coord × Coord) :=
  (NEIGHBORS_MASK.map (fun delta => (cur + delta, delta))).filter
    (fun nd => decide (nd.1 ∉ visited ∧ inBounds rows cols nd.1))

/-- Mutable state of the `gen_dfs` main loop. -/
structure DfsState where
  cl : ConnList
  visited : Finset Coord
  stack : List Coord
  depth : ℤ
  rng : RngI

/-- The fixed parameters of one `gen_dfs` call (after default resolution). -/
structure DfsArgs where
  rows : ℕ
  cols : ℕ
  nAcc : ℕ
  mtd : ℕ
  doForks : Bool

/-- One iteration of the `gen_dfs` loop body (lines 87-131): pop the
current cell; if it has unvisited in-bounds neighbors and
`current_tree_depth <= max_tree_depth / 2` (an exact comparison on
integers, embedded as `2 * depth ≤ mtd`), re-push it when `do_forks`,
choose a neighbor by a uniform index draw, open the canonical edge
(`dim = argmax |delta|`, owner cell decided by the sign of `delta.sum()`),
mark the neighbor visited and push it; otherwise decrement the depth
counter. -/
def dfsStep (A : DfsArgs) (s : DfsState) : DfsState :=
  match s.stack with
  | [] => s
  | cur :: rest =>
    match unvisitedNeighbors A.rows A.cols s.visited cur with
    | [] => { s with stack := rest, depth := s.depth - 1 }
    | x :: xs =>
      if 2 * s.depth ≤ (A.mtd : ℤ) then
        let nd := (x :: xs).get ⟨s.rng 0 % (x :: xs).length,
          Nat.mod_lt _ (Nat.succ_pos _)⟩
        let chosen := nd.1
        let delta := nd.2
        let dim : ℕ := if delta.1.natAbs < delta.2.natAbs then 1 else 0
        let node : Coord := if 0 < delta.1 + delta.2 then cur else chosen
        { cl := setCL s.cl dim node
          visited := insert chosen s.visited
          stack := chosen :: (if A.doForks then cur :: rest else rest)
          depth := s.depth + 1
          rng := rngTail s.rng }
      else { s with stack := rest, depth := s.depth - 1 }

/-- The `gen_dfs` loop guard (line 87):
`while stack and (len(visited_cells) < n_accessible_cells)`. -/
abbrev dfsGuard (A : DfsArgs) (s : DfsState) : Prop :=
  s.stack ≠ [] ∧ s.visited.card < A.nAcc

/-- The `gen_dfs` main loop, with fuel. -/
def dfsLoop (A : DfsArgs) : ℕ → DfsState → Option DfsState
  | 0, _ => none
  | fuel + 1, s =>
    if dfsGuard A s then dfsLoop A fuel (dfsStep A s) else some s

/-- Termination measure of the `gen_dfs` loop: each iteration either
consumes a stack entry or adds a newly visited cell. -/
def dmeasure (A : DfsArgs) (s : DfsState) : ℕ :=
  s.stack.length + 2 * (A.nAcc - s.visited.card)

/-- Initial `gen_dfs` state (lines 73-84). -/
def dfsInit (start : Coord) (g : RngI) : DfsState :=
  { cl := fun _ _ _ => false, visited := {start}, stack := [start],
    depth := 1, rng := g }

/-- Fuel sufficient for the `gen_dfs` loop (proved below). -/
def dfsFuel (A : DfsArgs) (s : DfsState) : ℕ := dmeasure A s + 1

/-- Run the `gen_dfs` loop to completion from the initial state. The
fuel suffices (`dfsLoop_isSome` below), so the `getD` default is never
used. -/
def dfsRun (A : DfsArgs) (start : Coord) (g : RngI) : DfsState :=
  (dfsLoop A (dfsFuel A (dfsInit start g)) (dfsInit start g)).getD
    (dfsInit start g)

/-- Embeds `LatticeMazeGenerators.gen_dfs` (lines 27-144): resolve the
defaults (`n_accessible_cells` to the total cell count, `max_tree_depth`
to twice it, the start coordinate to a random draw), run the loop, and
build the maze and its metadata (lines 133-144). The loop always
terminates within `dfsFuel` iterations, so the `getD` default is never
used. -/
def gen_dfs (rows cols : ℕ) (nAcc mtd : Option ℕ) (doForks : Bool)
    (start : Option Coord) (g : RngI) : LatticeMaze :=
  let nTotal := rows * cols
  let nAcc2 := nAcc.getD nTotal
  let mtd2 := mtd.getD (2 * nTotal)
  let sr := resolveStart rows cols start g
  let fin := dfsRun ⟨rows, cols, nAcc2, mtd2, doForks⟩ sr.1 sr.2
  { rows := rows, cols := cols, cl := fin.cl, funcName := "gen_dfs",
    startCoord := some sr.1, nAccessibleCells := some nAcc2,
    maxTreeDepth := some mtd2,
    fullyConnected := some (decide (fin.visited.card = nAcc2)),
    visitedCells := some fin.visited }

/-! ### The percolation generators (lines 250-330) -/

/-- Stream of `np.random.rand` float draws, as rationals. -/
abbrev RngF := ℕ → ℚ

/-- Embeds `np.random.rand(2, rows, cols) < p` (line 272): entry
`(d, r, c)` compares the stream value at its C-order position against
`p`; positions outside the array are `False`. -/
def percRaw (rows cols : ℕ) (p : ℚ) (fs : RngF) : ConnList :=
  fun d r c =>
    if d < 2 ∧ 0 ≤ r ∧ r < (rows : ℤ) ∧ 0 ≤ c ∧ c < (cols : ℤ) then
      decide (fs (d * (rows * cols) + r.toNat * cols + c.toNat) < p)
    else false

/-- Embeds `LatticeMazeGenerators.gen_percolation` (lines 250-290). The
`assert p >= 0 and p <= 1` (line 267) is the `Except.error` branch, taken
before anything else is computed, exactly as in the source. -/
def gen_percolation (rows cols : ℕ) (p : ℚ) (start : Option Coord)
    (g : RngI) (fs : RngF) : Except String LatticeMaze :=
  if 0 ≤ p ∧ p ≤ 1 then
    let sr := resolveStart rows cols start g
    let cl := fillEdges rows cols (percRaw rows cols p fs)
    .ok { rows := rows, cols := cols, cl := cl, funcName := "gen_percolation",
          percolationP := some p, startCoord := some sr.1,
          visitedComponent := some (reachableFrom cl sr.1) }
  else .error "p must be between 0 and 1"

/-- Embeds `LatticeMazeGenerators.gen_dfs_percolation` (lines 292-330):
resolve the start, run `gen_dfs` with it, OR a boundary-clamped
Bernoulli(`p`) grid into its connection list, overwrite
`func_name`/`percolation_p` and recompute `visited_cells` with the
component walker from the same start. The source performs no validation
of `p`. -/
def gen_dfs_percolation (rows cols : ℕ) (p : ℚ) (nAcc mtd : Option ℕ)
    (start : Option Coord) (g : RngI) (fs : RngF) : LatticeMaze :=
  let sr := resolveStart rows cols start g
  let m := gen_dfs rows cols nAcc mtd true (some sr.1) sr.2
  let perc := fillEdges rows cols (percRaw rows cols p fs)
  let merged : ConnList := fun d r c => m.cl d r c || perc d r c
  { m with
    cl := merged, funcName := "gen_dfs_percolation",
    percolationP := some p, visitedCells := none,
    visitedComponent := some (reachableFrom merged sr.1) }

/-! ### The Wilson generator (`LatticeMazeGenerators.gen_wilson`,
lines 146-248) -/

/-- Embeds the local `neighbor` function of `gen_wilson` (lines 159-173):
direction 0 = left, 1 = right, 2 = up, 3 = down; `None` for any other
direction value and for a step leaving the grid. -/
def wneighbor (rows cols : ℕ) (cur : Coord) (dir : ℕ) : Option Coord :=
  let cand : Option Coord :=
    if dir = 0 then some (cur.1, cur.2 - 1)
    else if dir = 1 then some (cur.1, cur.2 + 1)
    else if dir = 2 then some (cur.1 - 1, cur.2)
    else if dir = 3 then some (cur.1 + 1, cur.2)
    else none
  match cand with
  | none => none
  | some c => if inBounds rows cols c then some c else none

/-- Embeds the direction re-roll of `gen_wilson` (lines 207-212):
starting from the drawn direction, try `d, d+1, d+2, d+3 (mod 4)` until
the move stays inside the grid; `none` models the case where no direction
is valid (unreachable on grids with at least two cells). -/
def rollDir (rows cols : ℕ) (cur : Coord) (d : ℕ) : Option (ℕ × Coord) :=
  match wneighbor rows cols cur (d % 4) with
  | some c => some (d % 4, c)
  | none =>
    match wneighbor rows cols cur ((d + 1) % 4) with
    | some c => some ((d + 1) % 4, c)
    | none =>
      match wneighbor rows cols cur ((d + 2) % 4) with
      | some c => some ((d + 2) % 4, c)
      | none =>
        match wneighbor rows cols cur ((d + 3) % 4) with
        | some c => some ((d + 3) % 4, c)
        | none => none

/-- State threaded through `gen_wilson`: the per-cell connected flags,
the direction matrix, the connection list, the `cells_left` counter and
the random stream. -/
structure WilsonState where
  conn : Coord → Bool
  dm : Coord → ℕ
  cl : ConnList
  cellsLeft : ℤ
  rng : RngI

/-- Embeds the random-walk loop of `gen_wilson` (lines 199-215): walk
until the current cell is connected or already on this walk (loop
detection), recording at each cell the direction taken. Returns the
updated direction matrix, the cell the walk stopped at, and the rest of
the stream. -/
def wilsonWalk (rows cols : ℕ) (conn : Coord → Bool) :
    ℕ → Finset Coord → (Coord → ℕ) → Coord → RngI →
    Option ((Coord → ℕ) × Coord × RngI)
  | 0, _, _, _, _ => none
  | fuel + 1, visited, dm, cur, g =>
    if conn cur then some (dm, cur, g)
    else if cur ∈ visited then some (dm, cur, g)
    else
      match rollDir rows cols cur (g 0 % 4) with
      | none => none
      | some dn =>
        wilsonWalk rows cols conn fuel (insert cur visited)
          (fun v => if v = cur then dn.1 else dm v) dn.2 (rngTail g)

/-- Embeds the retrace loop of `gen_wilson` (lines 219-239): follow the
direction matrix from the walk start, marking each cell connected,
decrementing `cells_left` and opening the edge recorded for its
direction, until a connected cell is reached or the recorded direction
has no neighbor (the terminal sentinel 4). -/
def wilsonRetrace (rows cols : ℕ) (dm : Coord → ℕ) :
    ℕ → (Coord → Bool) → ConnList → ℤ → Coord →
    Option ((Coord → Bool) × ConnList × ℤ)
  | 0, _, _, _, _ => none
  | fuel + 1, conn, cl, cellsLeft, cur =>
    if conn cur then some (conn, cl, cellsLeft)
    else
      match wneighbor rows cols cur (dm cur) with
      | none => some (fun v => if v = cur then true else conn v, cl, cellsLeft - 1)
      | some nxt =>
        wilsonRetrace rows cols dm fuel
          (fun v => if v = cur then true else conn v)
          (if dm cur = 0 then setCL cl 1 nxt
           else if dm cur = 1 then setCL cl 1 cur
           else if dm cur = 2 then setCL cl 0 nxt
           else if dm cur = 3 then setCL cl 0 cur
           else cl)
          (cellsLeft - 1) nxt

/-- Embeds the start-of-walk draw of `gen_wilson` (lines 192-195): draw
random cells until an unconnected one is found. `random.randint(0, n-1)`
is inclusive, so a draw is `v % n`. -/
def pickUnconnected (rows cols : ℕ) (conn : Coord → Bool) :
    ℕ → RngI → Option (Coord × RngI)
  | 0, _ => none
  | fuel + 1, g =>
    let c : Coord := ((g 0 % rows : ℕ), (g 1 % cols : ℕ))
    if conn c then pickUnconnected rows cols conn fuel (rngTail2 g)
    else some (c, rngTail2 g)

/-- One iteration of the outer loop of `gen_wilson` (lines 188-239):
pick an unconnected start, random-walk from it, write the terminal
sentinel 4 into the direction matrix at the cell the walk stopped at
(line 217), then retrace from the start. -/
def wilsonIter (rows cols : ℕ) (fuel : ℕ) (st : WilsonState) :
    Option WilsonState :=
  match pickUnconnected rows cols st.conn fuel st.rng with
  | none => none
  | some sg =>
    match wilsonWalk rows cols st.conn fuel ∅ st.dm sg.1 sg.2 with
    | none => none
    | some w =>
      match wilsonRetrace rows cols (fun v => if v = w.2.1 then 4 else w.1 v)
          fuel st.conn st.cl st.cellsLeft sg.1 with
      | none => none
      | some r =>
        some ⟨r.1, fun v => if v = w.2.1 then 4 else w.1 v, r.2.1, r.2.2, w.2.2⟩

/-- The outer loop of `gen_wilson`: `while cells_left > 0`. -/
def wilsonOuter (rows cols : ℕ) (fuel : ℕ) :
    ℕ → WilsonState → Option WilsonState
  | 0, _ => none
  | n + 1, st =>
    if st.cellsLeft ≤ 0 then some st
    else
      match wilsonIter rows cols fuel st with
      | none => none
      | some st2 => wilsonOuter rows cols fuel n st2

/-- The initial `gen_wilson` state (lines 177-187): all-wall connection
list, one random cell seeded connected, `cells_left = rows*cols - 1`. -/
def wilsonInitState (rows cols : ℕ) (g : RngI) : WilsonState :=
  { conn := fun v => decide (v = ((((g 0 % rows : ℕ) : ℤ),
      ((g 1 % cols : ℕ) : ℤ)) : Coord)),
    dm := fun _ => 0, cl := fun _ _ _ => false,
    cellsLeft := (rows : ℤ) * cols - 1, rng := rngTail2 g }

/-- Embeds `LatticeMazeGenerators.gen_wilson` (lines 146-248): seed a
random cell as connected, run the outer loop, and on termination build
the maze; the metadata always records `fully_connected = True`
(line 246). -/
def gen_wilson (rows cols : ℕ) (fuel : ℕ) (g : RngI) : Option LatticeMaze :=
  match wilsonOuter rows cols fuel fuel (wilsonInitState rows cols g) with
  | none => none
  | some fin =>
    some { rows := rows, cols := cols, cl := fin.cl,
           funcName := "gen_wilson", fullyConnected := some true }

/-! ### Invariant predicates and concrete counterexample data -/

/-- Pointwise order on connection lists: every open edge of `cl` is open
in `cl2`. -/
def clLE (cl cl2 : ConnList) : Prop :=
  ∀ d r c, cl d r c = true → cl2 d r c = true

/-- The in-bounds cells of a `rows × cols` grid, as a finite set. -/
def gridCells (rows cols : ℕ) : Finset Coord :=
  (Finset.range rows ×ˢ Finset.range cols).image
    (fun rc => ((rc.1 : ℤ), (rc.2 : ℤ)))

/-- Loop invariant of `gen_dfs` for reachability: every stack cell is
visited, and every visited cell is reachable from the start over the
currently open edges. -/
def dfsReachInv (start : Coord) (s : DfsState) : Prop :=
  (∀ v ∈ s.stack, v ∈ s.visited) ∧
  (∀ v ∈ s.visited, v ∈ reachableFrom s.cl start)

/-- Loop invariant of `gen_dfs` for the boundary-wall property: every
stack cell is in-bounds and the two boundary slices hold no open edge. -/
def dfsBdInv (rows cols : ℕ) (s : DfsState) : Prop :=
  (∀ v ∈ s.stack, inBounds rows cols v) ∧ bdInv rows cols s.cl

/-- Every open edge is canonical (direction plane 0 or 1) and joins two
cells of `visited`. -/
def edgeClosed (cl : ConnList) (visited : Finset Coord) : Prop :=
  ∀ d r c, cl d r c = true →
    d < 2 ∧ ((r, c) : Coord) ∈ visited ∧
      ((d = 0 ∧ ((r + 1, c) : Coord) ∈ visited) ∨
       (d = 1 ∧ ((r, c + 1) : Coord) ∈ visited))

/-- Every open edge is canonical and joins two visited cells. -/
def dfsEdgeInv (s : DfsState) : Prop := edgeClosed s.cl s.visited

/-- Loop invariant of `gen_dfs` with `do_forks=False`: edges are
canonical between visited cells, every degree is at most 2, the stack
holds at most one cell and that cell has degree at most 1, the open-edge
count is one less than the visited count, and stack and visited cells
are in-bounds. -/
def dfsPathInv (rows cols : ℕ) (s : DfsState) : Prop :=
  dfsEdgeInv s ∧
  (∀ v : Coord, degB s.cl v ≤ 2) ∧
  (s.stack = [] ∨ ∃ h, s.stack = [h] ∧ degB s.cl h ≤ 1) ∧
  (openEdgeCount rows cols s.cl + 1 = s.visited.card) ∧
  (∀ v ∈ s.stack, v ∈ s.visited) ∧
  (∀ v ∈ s.visited, inBounds rows cols v)

/-- Integer random stream driving the 2×2 `gen_wilson` run that exhibits
the loop-detection defect: seed cell `(0,0)`; walk 1 starts at `(1,1)`,
steps left to `(1,0)`, steps right back to `(1,1)` (revisit, so the walk
breaks and the sentinel lands on the unconnected `(1,1)`); walk 2 starts
at `(0,1)` and steps down into `(1,1)`; walk 3 starts at `(1,0)` and
steps up into `(0,0)`. -/
def wilsonBugStream : RngI :=
  fun n => [0, 0, 1, 1, 0, 1, 0, 1, 3, 1, 0, 2].getD n 0

/-- The `gen_wilson` state on the 2×2 grid after seeding cell `(0, 0)`
as connected with the first two draws of `wilsonBugStream`. -/
def wilsonSeedState : WilsonState :=
  { conn := fun v => decide (v = (((0 : ℤ), (0 : ℤ)) : Coord)),
    dm := fun _ => 0, cl := fun _ _ _ => false, cellsLeft := 3,
    rng := rngTail2 wilsonBugStream }

/-! ### Theorems -/

/-! #### Facts about the DFS loop -/

theorem mem_unvisitedNeighbors {rows cols : ℕ} {visited : Finset Coord}
    {cur : Coord} {nd : Coord × Coord}
    (h : nd ∈ unvisitedNeighbors rows cols visited cur) :
    nd.1 ∉ visited ∧ inBounds rows cols nd.1 ∧ nd.1 = cur + nd.2 ∧
      nd.2 ∈ NEIGHBORS_MASK := by
  unfold unvisitedNeighbors at h
  have h1 := List.mem_of_mem_filter h
  have h2 := List.of_mem_filter h
  rw [List.mem_map] at h1
  obtain ⟨delta, hd, he⟩ := h1
  subst he
  have h3 := of_decide_eq_true h2
  exact ⟨h3.1, h3.2, rfl, hd⟩

/-- Characterization of one `gen_dfs` iteration on a non-empty stack:
either the dead-end branch (no unvisited neighbor, or the depth bound
exceeded) pops the stack and decrements the depth, or a member of the
unvisited-neighbor list is connected, visited and pushed. -/
theorem dfsStep_cases (A : DfsArgs) (s : DfsState) (hg : s.stack ≠ []) :
    ∃ cur rest, s.stack = cur :: rest ∧
      (((unvisitedNeighbors A.rows A.cols s.visited cur = [] ∨
          ¬ (2 * s.depth ≤ (A.mtd : ℤ))) ∧
        dfsStep A s = { s with stack := rest, depth := s.depth - 1 }) ∨
       (∃ chosen delta,
          (chosen, delta) ∈ unvisitedNeighbors A.rows A.cols s.visited cur ∧
          2 * s.depth ≤ (A.mtd : ℤ) ∧
          dfsStep A s =
            { cl := setCL s.cl (if delta.1.natAbs < delta.2.natAbs then 1 else 0)
                (if 0 < delta.1 + delta.2 then cur else chosen)
              visited := insert chosen s.visited
              stack := chosen :: (if A.doForks then cur :: rest else rest)
              depth := s.depth + 1
              rng := rngTail s.rng })) := by
  cases hs : s.stack with
  | nil => exact absurd hs hg
  | cons cur rest =>
    refine ⟨cur, rest, rfl, ?_⟩
    cases hu : unvisitedNeighbors A.rows A.cols s.visited cur with
    | nil =>
      left
      refine ⟨Or.inl rfl, ?_⟩
      simp only [dfsStep, hs, hu]
    | cons x xs =>
      by_cases hd : 2 * s.depth ≤ (A.mtd : ℤ)
      · right
        have hilt : s.rng 0 % (x :: xs).length < (x :: xs).length :=
          Nat.mod_lt _ (Nat.succ_pos _)
        refine ⟨((x :: xs).get ⟨_, hilt⟩).1, ((x :: xs).get ⟨_, hilt⟩).2,
          ?_, hd, ?_⟩
        · have hmem : (x :: xs).get ⟨_, hilt⟩ ∈ x :: xs := List.get_mem _ _ _
          simp only [Prod.mk.eta]
          exact hmem
        · simp only [dfsStep, hs, hu, hd, if_true]
      · left
        refine ⟨Or.inr hd, ?_⟩
        simp only [dfsStep, hs, hu, hd, if_false]

theorem dfsStep_visited_mono (A : DfsArgs) (s : DfsState) :
    s.visited ⊆ (dfsStep A s).visited := by
  by_cases hg : s.stack = []
  · unfold dfsStep
    rw [hg]
  · obtain ⟨cur, rest, hs, hcase⟩ := dfsStep_cases A s hg
    rcases hcase with ⟨_, hstep⟩ | ⟨chosen, delta, _, _, hstep⟩
    · rw [hstep]
    · rw [hstep]
      exact Finset.subset_insert _ _

/-- Each guarded iteration strictly decreases the termination measure:
it either adds one newly visited cell or shrinks the stack. -/
theorem dmeasure_dfsStep (A : DfsArgs) (s : DfsState) (hg : dfsGuard A s) :
    dmeasure A (dfsStep A s) < dmeasure A s := by
  obtain ⟨hne, hcard⟩ := hg
  obtain ⟨cur, rest, hs, hcase⟩ := dfsStep_cases A s hne
  rcases hcase with ⟨_, hstep⟩ | ⟨chosen, delta, hmem, _, hstep⟩
  · rw [hstep]
    simp only [dmeasure, hs, List.length_cons]
    omega
  · have hnv := (mem_unvisitedNeighbors hmem).1
    rw [hstep]
    simp only [dmeasure, hs, List.length_cons,
      Finset.card_insert_of_not_mem hnv]
    have hcard2 : s.visited.card < A.nAcc := hcard
    cases A.doForks <;> simp <;> omega

theorem dfsLoop_isSome (A : DfsArgs) :
    ∀ fuel s, dmeasure A s < fuel → (dfsLoop A fuel s).isSome = true := by
  intro fuel
  induction fuel with
  | zero => intro s h; omega
  | succ n ih =>
    intro s h
    rw [dfsLoop]
    split
    · have hlt := dmeasure_dfsStep A s ‹_›
      exact ih _ (by omega)
    · rfl

/-- Generic loop-invariant principle for the `gen_dfs` loop. -/
theorem dfsLoop_inv (A : DfsArgs) (P : DfsState → Prop)
    (hstep : ∀ s, dfsGuard A s → P s → P (dfsStep A s)) :
    ∀ fuel s t, P s → dfsLoop A fuel s = some t → P t := by
  intro fuel
  induction fuel with
  | zero => intro s t _ h; simp [dfsLoop] at h
  | succ n ih =>
    intro s t hP h
    rw [dfsLoop] at h
    split at h
    · exact ih _ _ (hstep s ‹_› hP) h
    · injection h with h2
      rw [← h2]
      exact hP

/-- When the loop returns, its guard has become false. -/
theorem dfsLoop_exit (A : DfsArgs) :
    ∀ fuel s t, dfsLoop A fuel s = some t → ¬ dfsGuard A t := by
  intro fuel
  induction fuel with
  | zero => intro s t h; simp [dfsLoop] at h
  | succ n ih =>
    intro s t h
    rw [dfsLoop] at h
    split at h
    · exact ih _ _ h
    · injection h with h2
      rw [← h2]
      assumption

theorem dfsLoop_fuel_mono (A : DfsArgs) :
    ∀ fuel fuel2 s t, fuel ≤ fuel2 → dfsLoop A fuel s = some t →
      dfsLoop A fuel2 s = some t := by
  intro fuel
  induction fuel with
  | zero => intro fuel2 s t _ h; simp [dfsLoop] at h
  | succ n ih =>
    intro fuel2 s t hle h
    match fuel2 with
    | m + 1 =>
      rw [dfsLoop] at h ⊢
      split at h
      · rw [if_pos ‹_›]
        exact ih m _ _ (by omega) h
      · rw [if_neg ‹_›]
        exact h

theorem dfsLoop_visited_mono (A : DfsArgs) :
    ∀ fuel s t, dfsLoop A fuel s = some t → s.visited ⊆ t.visited := by
  intro fuel
  induction fuel with
  | zero => intro s t h; simp [dfsLoop] at h
  | succ n ih =>
    intro s t h
    rw [dfsLoop] at h
    split at h
    · exact (dfsStep_visited_mono A s).trans (ih _ _ h)
    · injection h with h2
      rw [← h2]

theorem dfsLoop_not_guard (A : DfsArgs) (s : DfsState)
    (h : ¬ dfsGuard A s) (fuel : ℕ) (hf : 0 < fuel) :
    dfsLoop A fuel s = some s := by
  cases fuel with
  | zero => omega
  | succ n => rw [dfsLoop, if_neg h]

theorem dfsRun_eq (A : DfsArgs) (start : Coord) (g : RngI) :
    dfsLoop A (dfsFuel A (dfsInit start g)) (dfsInit start g) =
      some (dfsRun A start g) := by
  obtain ⟨t, ht⟩ := Option.isSome_iff_exists.mp
    (dfsLoop_isSome A (dfsFuel A (dfsInit start g)) (dfsInit start g)
      (by unfold dfsFuel; omega))
  rw [dfsRun, ht]
  rfl

/-- Invariant principle specialized to the full `gen_dfs` run. -/
theorem dfsRun_inv (A : DfsArgs) (P : DfsState → Prop)
    (hstep : ∀ s, dfsGuard A s → P s → P (dfsStep A s))
    (start : Coord) (g : RngI) (hinit : P (dfsInit start g)) :
    P (dfsRun A start g) :=
  dfsLoop_inv A P hstep _ _ _ hinit (dfsRun_eq A start g)

theorem dfsRun_exit (A : DfsArgs) (start : Coord) (g : RngI) :
    ¬ dfsGuard A (dfsRun A start g) :=
  dfsLoop_exit A _ _ _ (dfsRun_eq A start g)

theorem dfsRun_of_not_guard (A : DfsArgs) (start : Coord) (g : RngI)
    (h : ¬ dfsGuard A (dfsInit start g)) :
    dfsRun A start g = dfsInit start g := by
  rw [dfsRun, dfsLoop_not_guard A _ h _ (by unfold dfsFuel; omega)]
  rfl

/-! #### Connection-list lemmas -/

theorem setCL_le (cl : ConnList) (d : ℕ) (node : Coord) :
    clLE cl (setCL cl d node) := by
  intro d' r c h
  unfold setCL
  split_ifs with hcond
  · rfl
  · exact h

theorem adjOpen_mono {cl cl2 : ConnList} (h : clLE cl cl2) (a b : Coord)
    (hab : adjOpen cl a b = true) : adjOpen cl2 a b = true := by
  unfold adjOpen at hab ⊢
  simp only [Bool.or_eq_true, Bool.and_eq_true] at hab ⊢
  rcases hab with ((h1 | h1) | h1) | h1
  · exact Or.inl (Or.inl (Or.inl ⟨h1.1, h _ _ _ h1.2⟩))
  · exact Or.inl (Or.inl (Or.inr ⟨h1.1, h _ _ _ h1.2⟩))
  · exact Or.inl (Or.inr ⟨h1.1, h _ _ _ h1.2⟩)
  · exact Or.inr ⟨h1.1, h _ _ _ h1.2⟩

theorem reachableFrom_mono {cl cl2 : ConnList} (h : clLE cl cl2)
    {start v : Coord} (hv : v ∈ reachableFrom cl start) :
    v ∈ reachableFrom cl2 start :=
  Relation.ReflTransGen.mono (fun a b hab => adjOpen_mono h a b hab) hv

/-- Opening the canonical edge for a neighbor step makes the current
cell and the chosen neighbor adjacent (the four `NEIGHBORS_MASK`
cases). -/
theorem adjOpen_setCL_pair (cl : ConnList) (cur chosen delta : Coord)
    (hmask : delta ∈ NEIGHBORS_MASK) (he : chosen = cur + delta) :
    adjOpen (setCL cl (if delta.1.natAbs < delta.2.natAbs then 1 else 0)
      (if 0 < delta.1 + delta.2 then cur else chosen)) cur chosen = true := by
  have hcases : delta = ((1 : ℤ), (0 : ℤ)) ∨ delta = (-1, 0) ∨
      delta = (0, 1) ∨ delta = (0, -1) := by
    simpa [NEIGHBORS_MASK] using hmask
  subst he
  rcases hcases with h | h | h | h <;> subst h <;>
    simp [adjOpen, setCL, Prod.ext_iff] <;> omega

/-! #### The reachability invariant of `gen_dfs` (shared by C6 and C8) -/

theorem dfsStep_reachInv (A : DfsArgs) (start : Coord) (s : DfsState)
    (hg : dfsGuard A s) (hI : dfsReachInv start s) :
    dfsReachInv start (dfsStep A s) := by
  obtain ⟨hstack, hreach⟩ := hI
  obtain ⟨cur, rest, hs, hcase⟩ := dfsStep_cases A s hg.1
  rcases hcase with ⟨_, hstep⟩ | ⟨chosen, delta, hmem, _, hstep⟩
  · rw [hstep]
    refine ⟨?_, hreach⟩
    intro v hv
    exact hstack v (by rw [hs]; exact List.mem_cons_of_mem _ hv)
  · obtain ⟨hnv, hinb, he, hmask⟩ := mem_unvisitedNeighbors hmem
    have hcur : cur ∈ s.visited :=
      hstack cur (by rw [hs]; exact List.mem_cons_self _ _)
    have hle := setCL_le s.cl
      (if delta.1.natAbs < delta.2.natAbs then 1 else 0)
      (if 0 < delta.1 + delta.2 then cur else chosen)
    rw [hstep]
    constructor
    · intro v hv
      rcases List.mem_cons.mp hv with rfl | hv2
      · exact Finset.mem_insert_self _ _
      · refine Finset.mem_insert_of_mem (hstack v ?_)
        rw [hs]
        by_cases hf : A.doForks = true
        · rw [if_pos hf] at hv2
          exact hv2
        · rw [if_neg hf] at hv2
          exact List.mem_cons_of_mem _ hv2
    · intro v hv
      rcases Finset.mem_insert.mp hv with rfl | hv2
      · exact Relation.ReflTransGen.tail
          (reachableFrom_mono hle (hreach cur hcur))
          (adjOpen_setCL_pair s.cl cur v delta hmask he)
      · exact reachableFrom_mono hle (hreach v hv2)

theorem dfsInit_reachInv (start : Coord) (g : RngI) :
    dfsReachInv start (dfsInit start g) := by
  constructor
  · intro v hv
    simp only [dfsInit, List.mem_singleton] at hv
    simp [dfsInit, hv]
  · intro v hv
    simp only [dfsInit, Finset.mem_singleton] at hv
    subst hv
    exact Relation.ReflTransGen.refl

theorem dfsRun_reachInv (A : DfsArgs) (start : Coord) (g : RngI) :
    dfsReachInv start (dfsRun A start g) :=
  dfsRun_inv A (dfsReachInv start) (dfsStep_reachInv A start) start g
    (dfsInit_reachInv start g)

/-! #### Degree and edge-count accounting -/

theorem b2n_le_one (b : Bool) : b2n b ≤ 1 := by
  cases b <;> simp [b2n]

theorem setCL_ne_dim (cl : ConnList) (d : ℕ) (node : Coord) (d' : ℕ)
    (r c : ℤ) (hd : d' ≠ d) : setCL cl d node d' r c = cl d' r c := by
  unfold setCL
  rw [if_neg]
  rintro ⟨h, -⟩
  exact hd h

theorem setCL_ne_pos (cl : ConnList) (d : ℕ) (node : Coord) (d' : ℕ)
    (r c : ℤ) (h : ¬ (r = node.1 ∧ c = node.2)) :
    setCL cl d node d' r c = cl d' r c := by
  unfold setCL
  rw [if_neg]
  rintro ⟨-, h1, h2⟩
  exact h ⟨h1, h2⟩

theorem coord_add_pair (a : Coord) (x y : ℤ) :
    a + (x, y) = (a.1 + x, a.2 + y) := by
  refine Prod.ext_iff.mpr ⟨?_, ?_⟩
  · rw [Prod.fst_add]
  · rw [Prod.snd_add]

theorem degB_setCL0_le (cl : ConnList) (node v : Coord) :
    degB (setCL cl 0 node) v ≤ degB cl v + 1 := by
  unfold degB
  rw [setCL_ne_dim cl 0 node 1 v.1 (v.2 - 1) one_ne_zero,
    setCL_ne_dim cl 0 node 1 v.1 v.2 one_ne_zero]
  by_cases hA : v.1 - 1 = node.1 ∧ v.2 = node.2
  · rw [setCL_ne_pos cl 0 node 0 v.1 v.2 (by rintro ⟨h1, h2⟩; omega)]
    have hb := b2n_le_one (setCL cl 0 node 0 (v.1 - 1) v.2)
    omega
  · rw [setCL_ne_pos cl 0 node 0 (v.1 - 1) v.2 hA]
    have hb := b2n_le_one (setCL cl 0 node 0 v.1 v.2)
    omega

theorem degB_setCL1_le (cl : ConnList) (node v : Coord) :
    degB (setCL cl 1 node) v ≤ degB cl v + 1 := by
  unfold degB
  rw [setCL_ne_dim cl 1 node 0 (v.1 - 1) v.2 zero_ne_one,
    setCL_ne_dim cl 1 node 0 v.1 v.2 zero_ne_one]
  by_cases hA : v.1 = node.1 ∧ v.2 - 1 = node.2
  · rw [setCL_ne_pos cl 1 node 1 v.1 v.2 (by rintro ⟨h1, h2⟩; omega)]
    have hb := b2n_le_one (setCL cl 1 node 1 v.1 (v.2 - 1))
    omega
  · rw [setCL_ne_pos cl 1 node 1 v.1 (v.2 - 1) hA]
    have hb := b2n_le_one (setCL cl 1 node 1 v.1 v.2)
    omega

theorem degB_setCL0_eq (cl : ConnList) (node v : Coord)
    (h1 : ¬ (v.1 = node.1 ∧ v.2 = node.2))
    (h2 : ¬ (v.1 = node.1 + 1 ∧ v.2 = node.2)) :
    degB (setCL cl 0 node) v = degB cl v := by
  unfold degB
  rw [setCL_ne_dim cl 0 node 1 v.1 (v.2 - 1) one_ne_zero,
    setCL_ne_dim cl 0 node 1 v.1 v.2 one_ne_zero,
    setCL_ne_pos cl 0 node 0 v.1 v.2 h1,
    setCL_ne_pos cl 0 node 0 (v.1 - 1) v.2 (by rintro ⟨ha, hb⟩; omega)]

theorem degB_setCL1_eq (cl : ConnList) (node v : Coord)
    (h1 : ¬ (v.1 = node.1 ∧ v.2 = node.2))
    (h2 : ¬ (v.1 = node.1 ∧ v.2 = node.2 + 1)) :
    degB (setCL cl 1 node) v = degB cl v := by
  unfold degB
  rw [setCL_ne_dim cl 1 node 0 (v.1 - 1) v.2 zero_ne_one,
    setCL_ne_dim cl 1 node 0 v.1 v.2 zero_ne_one,
    setCL_ne_pos cl 1 node 1 v.1 v.2 h1,
    setCL_ne_pos cl 1 node 1 v.1 (v.2 - 1) (by rintro ⟨ha, hb⟩; omega)]

theorem degB_zero (cl : ConnList) (v : Coord)
    (h1 : cl 0 (v.1 - 1) v.2 = false) (h2 : cl 0 v.1 v.2 = false)
    (h3 : cl 1 v.1 (v.2 - 1) = false) (h4 : cl 1 v.1 v.2 = false) :
    degB cl v = 0 := by
  unfold degB
  rw [h1, h2, h3, h4]
  rfl

theorem openEdgeCount_setCL (rows cols : ℕ) (cl : ConnList) (d : ℕ)
    (node : Coord) (hd : d < 2) (h1 : 0 ≤ node.1) (h2 : node.1 < (rows : ℤ))
    (h3 : 0 ≤ node.2) (h4 : node.2 < (cols : ℤ))
    (hfalse : cl d node.1 node.2 = false) :
    openEdgeCount rows cols (setCL cl d node) =
      openEdgeCount rows cols cl + 1 := by
  unfold openEdgeCount
  have hn1 : ((node.1.toNat : ℤ)) = node.1 := Int.toNat_of_nonneg h1
  have hn2 : ((node.2.toNat : ℤ)) = node.2 := Int.toNat_of_nonneg h3
  have hmem : (d, node.1.toNat, node.2.toNat) ∈ allEntries rows cols := by
    simp only [allEntries, Finset.mem_product, Finset.mem_range]
    refine ⟨hd, ?_, ?_⟩ <;> omega
  have hkey : (allEntries rows cols).filter
      (fun t => setCL cl d node t.1 (t.2.1 : ℤ) (t.2.2 : ℤ) = true) =
      insert (d, node.1.toNat, node.2.toNat)
        ((allEntries rows cols).filter
          (fun t => cl t.1 (t.2.1 : ℤ) (t.2.2 : ℤ) = true)) := by
    ext t
    simp only [Finset.mem_filter, Finset.mem_insert]
    constructor
    · rintro ⟨htm, hset⟩
      by_cases hcond : t.1 = d ∧ (t.2.1 : ℤ) = node.1 ∧ (t.2.2 : ℤ) = node.2
      · left
        obtain ⟨e1, e2, e3⟩ := hcond
        have g1 : t.2.1 = node.1.toNat := by omega
        have g2 : t.2.2 = node.2.toNat := by omega
        rw [Prod.ext_iff, Prod.ext_iff]
        exact ⟨e1, g1, g2⟩
      · right
        refine ⟨htm, ?_⟩
        unfold setCL at hset
        rw [if_neg hcond] at hset
        exact hset
    · rintro (rfl | ⟨htm, hcl⟩)
      · refine ⟨hmem, ?_⟩
        unfold setCL
        rw [if_pos ⟨rfl, hn1, hn2⟩]
      · refine ⟨htm, ?_⟩
        unfold setCL
        by_cases hcond : t.1 = d ∧ (t.2.1 : ℤ) = node.1 ∧ (t.2.2 : ℤ) = node.2
        · obtain ⟨e1, e2, e3⟩ := hcond
          rw [e1, e2, e3] at hcl
          rw [hfalse] at hcl
          cases hcl
        · rw [if_neg hcond]
          exact hcl
  rw [hkey, Finset.card_insert_of_not_mem]
  intro hmem2
  rw [Finset.mem_filter] at hmem2
  have hthis := hmem2.2
  simp only at hthis
  rw [hn1, hn2, hfalse] at hthis
  cases hthis

/-! #### C6: the no-forks corridor mode -/

theorem edgeClosed_mono {cl : ConnList} {v1 v2 : Finset Coord}
    (h : edgeClosed cl v1) (hsub : v1 ⊆ v2) : edgeClosed cl v2 := by
  intro d r c hcl
  obtain ⟨hlt, h1, hor⟩ := h d r c hcl
  refine ⟨hlt, hsub h1, ?_⟩
  rcases hor with ⟨hd, h2⟩ | ⟨hd, h2⟩
  · exact Or.inl ⟨hd, hsub h2⟩
  · exact Or.inr ⟨hd, hsub h2⟩

theorem edgeClosed_setCL0 {cl : ConnList} {visited : Finset Coord}
    (h : edgeClosed cl visited) {node : Coord} (hn : node ∈ visited)
    (ho : (((node.1 + 1 : ℤ), node.2) : Coord) ∈ visited) :
    edgeClosed (setCL cl 0 node) visited := by
  intro d r c hcl
  by_cases hcond : d = 0 ∧ r = node.1 ∧ c = node.2
  · obtain ⟨rfl, rfl, rfl⟩ := hcond
    exact ⟨by norm_num, hn, Or.inl ⟨rfl, ho⟩⟩
  · unfold setCL at hcl
    rw [if_neg hcond] at hcl
    exact h d r c hcl

theorem edgeClosed_setCL1 {cl : ConnList} {visited : Finset Coord}
    (h : edgeClosed cl visited) {node : Coord} (hn : node ∈ visited)
    (ho : ((node.1, (node.2 + 1 : ℤ)) : Coord) ∈ visited) :
    edgeClosed (setCL cl 1 node) visited := by
  intro d r c hcl
  by_cases hcond : d = 1 ∧ r = node.1 ∧ c = node.2
  · obtain ⟨rfl, rfl, rfl⟩ := hcond
    exact ⟨by norm_num, hn, Or.inr ⟨rfl, ho⟩⟩
  · unfold setCL at hcl
    rw [if_neg hcond] at hcl
    exact h d r c hcl

/-- One corridor step in the row direction preserves the path
invariant. -/
theorem dfsPathInv_insert0 (rows cols : ℕ) (cl : ConnList)
    (visited : Finset Coord) (cur chosen node : Coord) (depth : ℤ) (g : RngI)
    (hedge : edgeClosed cl visited)
    (hdeg : ∀ v : Coord, degB cl v ≤ 2)
    (hdegcur : degB cl cur ≤ 1)
    (hfresh : degB cl chosen = 0)
    (hcount : openEdgeCount rows cols cl + 1 = visited.card)
    (hvin : ∀ v ∈ visited, inBounds rows cols v)
    (hcur_v : cur ∈ visited) (hnv2 : chosen ∉ visited)
    (hinb2 : inBounds rows cols chosen)
    (hnode_in : inBounds rows cols node)
    (hor : (node = cur ∧ (((node.1 + 1 : ℤ), node.2) : Coord) = chosen) ∨
           (node = chosen ∧ (((node.1 + 1 : ℤ), node.2) : Coord) = cur))
    (hef : cl 0 node.1 node.2 = false) :
    dfsPathInv rows cols
      ⟨setCL cl 0 node, insert chosen visited, [chosen], depth, g⟩ := by
  refine ⟨?_, ?_, ?_, ?_, ?_, ?_⟩
  · refine edgeClosed_setCL0
      (edgeClosed_mono hedge (Finset.subset_insert _ _)) ?_ ?_
    · rcases hor with ⟨hne, -⟩ | ⟨hne, -⟩
      · rw [hne]; exact Finset.mem_insert_of_mem hcur_v
      · rw [hne]; exact Finset.mem_insert_self _ _
    · rcases hor with ⟨-, hoth⟩ | ⟨-, hoth⟩
      · rw [hoth]; exact Finset.mem_insert_self _ _
      · rw [hoth]; exact Finset.mem_insert_of_mem hcur_v
  · intro v
    show degB (setCL cl 0 node) v ≤ 2
    by_cases hvn : v.1 = node.1 ∧ v.2 = node.2
    · have hveq : v = node := Prod.ext_iff.mpr hvn
      have hb : degB cl v ≤ 1 := by
        rcases hor with ⟨hne, -⟩ | ⟨hne, -⟩
        · rw [hveq, hne]; exact hdegcur
        · rw [hveq, hne, hfresh]; omega
      have hle := degB_setCL0_le cl node v
      omega
    · by_cases hvo : v.1 = node.1 + 1 ∧ v.2 = node.2
      · have hveq : v = (((node.1 + 1 : ℤ), node.2) : Coord) :=
          Prod.ext_iff.mpr hvo
        have hb : degB cl v ≤ 1 := by
          rcases hor with ⟨-, hoth⟩ | ⟨-, hoth⟩
          · rw [hveq, hoth, hfresh]; omega
          · rw [hveq, hoth]; exact hdegcur
        have hle := degB_setCL0_le cl node v
        omega
      · rw [degB_setCL0_eq cl node v hvn hvo]
        exact hdeg v
  · refine Or.inr ⟨chosen, rfl, ?_⟩
    show degB (setCL cl 0 node) chosen ≤ 1
    have hle := degB_setCL0_le cl node chosen
    omega
  · have hcnt := openEdgeCount_setCL rows cols cl 0 node (by norm_num)
      hnode_in.1 hnode_in.2.1 hnode_in.2.2.1 hnode_in.2.2.2 hef
    have hcard := Finset.card_insert_of_not_mem hnv2
    show openEdgeCount rows cols (setCL cl 0 node) + 1 =
      (insert chosen visited).card
    omega
  · intro v hv
    rcases List.mem_singleton.mp hv with rfl
    exact Finset.mem_insert_self _ _
  · intro v hv
    rcases Finset.mem_insert.mp hv with rfl | hv2
    · exact hinb2
    · exact hvin v hv2

/-- One corridor step in the column direction preserves the path
invariant. -/
theorem dfsPathInv_insert1 (rows cols : ℕ) (cl : ConnList)
    (visited : Finset Coord) (cur chosen node : Coord) (depth : ℤ) (g : RngI)
    (hedge : edgeClosed cl visited)
    (hdeg : ∀ v : Coord, degB cl v ≤ 2)
    (hdegcur : degB cl cur ≤ 1)
    (hfresh : degB cl chosen = 0)
    (hcount : openEdgeCount rows cols cl + 1 = visited.card)
    (hvin : ∀ v ∈ visited, inBounds rows cols v)
    (hcur_v : cur ∈ visited) (hnv2 : chosen ∉ visited)
    (hinb2 : inBounds rows cols chosen)
    (hnode_in : inBounds rows cols node)
    (hor : (node = cur ∧ ((node.1, (node.2 + 1 : ℤ)) : Coord) = chosen) ∨
           (node = chosen ∧ ((node.1, (node.2 + 1 : ℤ)) : Coord) = cur))
    (hef : cl 1 node.1 node.2 = false) :
    dfsPathInv rows cols
      ⟨setCL cl 1 node, insert chosen visited, [chosen], depth, g⟩ := by
  refine ⟨?_, ?_, ?_, ?_, ?_, ?_⟩
  · refine edgeClosed_setCL1
      (edgeClosed_mono hedge (Finset.subset_insert _ _)) ?_ ?_
    · rcases hor with ⟨hne, -⟩ | ⟨hne, -⟩
      · rw [hne]; exact Finset.mem_insert_of_mem hcur_v
      · rw [hne]; exact Finset.mem_insert_self _ _
    · rcases hor with ⟨-, hoth⟩ | ⟨-, hoth⟩
      · rw [hoth]; exact Finset.mem_insert_self _ _
      · rw [hoth]; exact Finset.mem_insert_of_mem hcur_v
  · intro v
    show degB (setCL cl 1 node) v ≤ 2
    by_cases hvn : v.1 = node.1 ∧ v.2 = node.2
    · have hveq : v = node := Prod.ext_iff.mpr hvn
      have hb : degB cl v ≤ 1 := by
        rcases hor with ⟨hne, -⟩ | ⟨hne, -⟩
        · rw [hveq, hne]; exact hdegcur
        · rw [hveq, hne, hfresh]; omega
      have hle := degB_setCL1_le cl node v
      omega
    · by_cases hvo : v.1 = node.1 ∧ v.2 = node.2 + 1
      · have hveq : v = ((node.1, (node.2 + 1 : ℤ)) : Coord) :=
          Prod.ext_iff.mpr hvo
        have hb : degB cl v ≤ 1 := by
          rcases hor with ⟨-, hoth⟩ | ⟨-, hoth⟩
          · rw [hveq, hoth, hfresh]; omega
          · rw [hveq, hoth]; exact hdegcur
        have hle := degB_setCL1_le cl node v
        omega
      · rw [degB_setCL1_eq cl node v hvn hvo]
        exact hdeg v
  · refine Or.inr ⟨chosen, rfl, ?_⟩
    show degB (setCL cl 1 node) chosen ≤ 1
    have hle := degB_setCL1_le cl node chosen
    omega
  · have hcnt := openEdgeCount_setCL rows cols cl 1 node (by norm_num)
      hnode_in.1 hnode_in.2.1 hnode_in.2.2.1 hnode_in.2.2.2 hef
    have hcard := Finset.card_insert_of_not_mem hnv2
    show openEdgeCount rows cols (setCL cl 1 node) + 1 =
      (insert chosen visited).card
    omega
  · intro v hv
    rcases List.mem_singleton.mp hv with rfl
    exact Finset.mem_insert_self _ _
  · intro v hv
    rcases Finset.mem_insert.mp hv with rfl | hv2
    · exact hinb2
    · exact hvin v hv2

theorem dfsStep_pathInv (A : DfsArgs) (hforks : A.doForks = false)
    (s : DfsState) (hg : dfsGuard A s) (hI : dfsPathInv A.rows A.cols s) :
    dfsPathInv A.rows A.cols (dfsStep A s) := by
  obtain ⟨hedge, hdeg, hsingle, hcount, hsv, hvin⟩ := hI
  obtain ⟨cur, rest, hs, hcase⟩ := dfsStep_cases A s hg.1
  have hrest : rest = [] := by
    rcases hsingle with h0 | ⟨hh, heq, -⟩
    · rw [hs] at h0
      exact absurd h0 (List.cons_ne_nil _ _)
    · rw [hs] at heq
      exact (List.cons_eq_cons.mp heq).2
  have hdegcur : degB s.cl cur ≤ 1 := by
    rcases hsingle with h0 | ⟨hh, heq, hdg⟩
    · rw [hs] at h0
      exact absurd h0 (List.cons_ne_nil _ _)
    · rw [hs] at heq
      obtain ⟨he1, -⟩ := List.cons_eq_cons.mp heq
      rw [he1]
      exact hdg
  subst hrest
  rcases hcase with ⟨-, hstep⟩ | ⟨chosen, delta, hmem, -, hstep⟩
  · rw [hstep]
    refine ⟨hedge, hdeg, Or.inl rfl, hcount, ?_, hvin⟩
    intro v hv
    exact absurd hv (List.not_mem_nil v)
  · obtain ⟨hnv, hinb, he, hmask⟩ := mem_unvisitedNeighbors hmem
    have he2 : chosen = cur + delta := he
    have hinb2 : inBounds A.rows A.cols chosen := hinb
    have hnv2 : chosen ∉ s.visited := hnv
    have hcur_v : cur ∈ s.visited :=
      hsv cur (by rw [hs]; exact List.mem_cons_self _ _)
    have hcur_in : inBounds A.rows A.cols cur := hvin cur hcur_v
    have hz : ∀ r c : ℤ, s.cl 0 r c = true →
        ((r, c) : Coord) ∈ s.visited ∧ ((r + 1, c) : Coord) ∈ s.visited := by
      intro r c hcl
      obtain ⟨-, hv1, hor⟩ := hedge 0 r c hcl
      rcases hor with ⟨-, hv2⟩ | ⟨h01, -⟩
      · exact ⟨hv1, hv2⟩
      · exact absurd h01 (by norm_num)
    have ho : ∀ r c : ℤ, s.cl 1 r c = true →
        ((r, c) : Coord) ∈ s.visited ∧ ((r, c + 1) : Coord) ∈ s.visited := by
      intro r c hcl
      obtain ⟨-, hv1, hor⟩ := hedge 1 r c hcl
      rcases hor with ⟨h10, -⟩ | ⟨-, hv2⟩
      · exact absurd h10 (by norm_num)
      · exact ⟨hv1, hv2⟩
    have hr1 : s.cl 0 (chosen.1 - 1) chosen.2 = false := by
      cases hread : s.cl 0 (chosen.1 - 1) chosen.2 with
      | false => rfl
      | true =>
        have h2 := (hz _ _ hread).2
        have he3 : (((chosen.1 - 1 + 1 : ℤ), chosen.2) : Coord) = chosen :=
          Prod.ext_iff.mpr ⟨by ring, rfl⟩
        rw [he3] at h2
        exact absurd h2 hnv2
    have hr2 : s.cl 0 chosen.1 chosen.2 = false := by
      cases hread : s.cl 0 chosen.1 chosen.2 with
      | false => rfl
      | true => exact absurd (hz _ _ hread).1 hnv2
    have hr3 : s.cl 1 chosen.1 (chosen.2 - 1) = false := by
      cases hread : s.cl 1 chosen.1 (chosen.2 - 1) with
      | false => rfl
      | true =>
        have h2 := (ho _ _ hread).2
        have he3 : ((chosen.1, (chosen.2 - 1 + 1 : ℤ)) : Coord) = chosen :=
          Prod.ext_iff.mpr ⟨rfl, by ring⟩
        rw [he3] at h2
        exact absurd h2 hnv2
    have hr4 : s.cl 1 chosen.1 chosen.2 = false := by
      cases hread : s.cl 1 chosen.1 chosen.2 with
      | false => rfl
      | true => exact absurd (ho _ _ hread).1 hnv2
    have hfresh : degB s.cl chosen = 0 := degB_zero _ _ hr1 hr2 hr3 hr4
    have hcases : delta = ((1 : ℤ), (0 : ℤ)) ∨ delta = (-1, 0) ∨
        delta = (0, 1) ∨ delta = (0, -1) := by
      simpa [NEIGHBORS_MASK] using hmask
    rcases hcases with hdel | hdel | hdel | hdel <;> subst hdel
    · have hchpair : (((cur.1 + 1 : ℤ), cur.2) : Coord) = chosen := by
        rw [he2, coord_add_pair]
        simp
      have hef : s.cl 0 cur.1 cur.2 = false := by
        cases hread : s.cl 0 cur.1 cur.2 with
        | false => rfl
        | true =>
          have h2 := (hz _ _ hread).2
          rw [hchpair] at h2
          exact absurd h2 hnv2
      rw [hstep, hforks]
      exact dfsPathInv_insert0 A.rows A.cols s.cl s.visited cur chosen cur
        (s.depth + 1) (rngTail s.rng) hedge hdeg hdegcur hfresh hcount hvin
        hcur_v hnv2 hinb2 hcur_in (Or.inl ⟨rfl, hchpair⟩) hef
    · have hopair : (((chosen.1 + 1 : ℤ), chosen.2) : Coord) = cur := by
        rw [he2, coord_add_pair]
        refine Prod.ext_iff.mpr ⟨?_, ?_⟩
        · show cur.1 + -1 + 1 = cur.1
          ring
        · show cur.2 + 0 = cur.2
          ring
      rw [hstep, hforks]
      exact dfsPathInv_insert0 A.rows A.cols s.cl s.visited cur chosen chosen
        (s.depth + 1) (rngTail s.rng) hedge hdeg hdegcur hfresh hcount hvin
        hcur_v hnv2 hinb2 hinb2 (Or.inr ⟨rfl, hopair⟩) hr2
    · have hchpair : ((cur.1, (cur.2 + 1 : ℤ)) : Coord) = chosen := by
        rw [he2, coord_add_pair]
        simp
      have hef : s.cl 1 cur.1 cur.2 = false := by
        cases hread : s.cl 1 cur.1 cur.2 with
        | false => rfl
        | true =>
          have h2 := (ho _ _ hread).2
          rw [hchpair] at h2
          exact absurd h2 hnv2
      rw [hstep, hforks]
      exact dfsPathInv_insert1 A.rows A.cols s.cl s.visited cur chosen cur
        (s.depth + 1) (rngTail s.rng) hedge hdeg hdegcur hfresh hcount hvin
        hcur_v hnv2 hinb2 hcur_in (Or.inl ⟨rfl, hchpair⟩) hef
    · have hopair : ((chosen.1, (chosen.2 + 1 : ℤ)) : Coord) = cur := by
        rw [he2, coord_add_pair]
        refine Prod.ext_iff.mpr ⟨?_, ?_⟩
        · show cur.1 + 0 = cur.1
          ring
        · show cur.2 + -1 + 1 = cur.2
          ring
      rw [hstep, hforks]
      exact dfsPathInv_insert1 A.rows A.cols s.cl s.visited cur chosen chosen
        (s.depth + 1) (rngTail s.rng) hedge hdeg hdegcur hfresh hcount hvin
        hcur_v hnv2 hinb2 hinb2 (Or.inr ⟨rfl, hopair⟩) hr4

theorem dfsInit_pathInv (rows cols : ℕ) (start : Coord) (g : RngI)
    (hs : inBounds rows cols start) :
    dfsPathInv rows cols (dfsInit start g) := by
  refine ⟨?_, ?_, ?_, ?_, ?_, ?_⟩
  · intro d r c hcl
    exact absurd hcl (by simp [dfsInit])
  · intro v
    show degB (fun _ _ _ => false) v ≤ 2
    rw [degB_zero _ _ rfl rfl rfl rfl]
    omega
  · refine Or.inr ⟨start, rfl, ?_⟩
    show degB (fun _ _ _ => false) start ≤ 1
    rw [degB_zero _ _ rfl rfl rfl rfl]
    omega
  · show openEdgeCount rows cols (fun _ _ _ => false) + 1 =
      ({start} : Finset Coord).card
    rw [Finset.card_singleton]
    unfold openEdgeCount
    rw [Finset.filter_false_of_mem]
    · rfl
    · intro t ht
      simp
  · intro v hv
    rcases List.mem_singleton.mp hv with rfl
    exact Finset.mem_singleton_self _
  · intro v hv
    rcases Finset.mem_singleton.mp hv with rfl
    exact hs

/-- C6: with `do_forks=False`, `gen_dfs` carves a single simple
non-branching corridor: every cell has open-edge degree at most 2, the
number of open edges is exactly one less than the number of visited
cells, and every visited cell is reachable from the start — i.e. the
carved region is one connected acyclic path. Stated for calls whose
resolved start coordinate is in-bounds (the coordinate data model of
§3; the default random start always is). -/
theorem gen_dfs_no_forks_corridor (rows cols : ℕ) (nAcc mtd : Option ℕ)
    (start : Option Coord) (g : RngI)
    (hs : inBounds rows cols (resolveStart rows cols start g).1) :
    (∀ v : Coord, degB (gen_dfs rows cols nAcc mtd false start g).cl v ≤ 2) ∧
    (openEdgeCount rows cols (gen_dfs rows cols nAcc mtd false start g).cl +
      1 = ((gen_dfs rows cols nAcc mtd false start g).visitedCells.getD
        ∅).card) ∧
    (∀ v ∈ (gen_dfs rows cols nAcc mtd false start g).visitedCells.getD ∅,
      v ∈ reachableFrom (gen_dfs rows cols nAcc mtd false start g).cl
        (resolveStart rows cols start g).1) := by
  have hP := dfsRun_inv
    ⟨rows, cols, nAcc.getD (rows * cols), mtd.getD (2 * (rows * cols)), false⟩
    (dfsPathInv rows cols) (fun s hg hI => dfsStep_pathInv _ rfl s hg hI)
    (resolveStart rows cols start g).1 (resolveStart rows cols start g).2
    (dfsInit_pathInv rows cols _ _ hs)
  have hR := dfsRun_reachInv
    ⟨rows, cols, nAcc.getD (rows * cols), mtd.getD (2 * (rows * cols)), false⟩
    (resolveStart rows cols start g).1 (resolveStart rows cols start g).2
  exact ⟨hP.2.1, hP.2.2.2.1, hR.2⟩

/-- C6 (witness): the corridor properties instantiated on a concrete
2×2 run from start `(0, 0)`. -/
theorem gen_dfs_no_forks_corridor_witness :
    (∀ v : Coord,
      degB (gen_dfs 2 2 none none false (some (0, 0)) (fun _ => 0)).cl v ≤ 2) ∧
    (openEdgeCount 2 2 (gen_dfs 2 2 none none false (some (0, 0))
      (fun _ => 0)).cl + 1 =
      ((gen_dfs 2 2 none none false (some (0, 0))
        (fun _ => 0)).visitedCells.getD ∅).card) ∧
    (∀ v ∈ (gen_dfs 2 2 none none false (some (0, 0))
        (fun _ => 0)).visitedCells.getD ∅,
      v ∈ reachableFrom (gen_dfs 2 2 none none false (some (0, 0))
        (fun _ => 0)).cl
        (resolveStart 2 2 (some (0, 0)) (fun _ => 0)).1) :=
  gen_dfs_no_forks_corridor 2 2 none none (some (0, 0)) (fun _ => 0)
    (by decide)

/-! #### C8: hybrid monotonicity -/

/-- C8: in `gen_dfs_percolation`, every edge open in the intermediate
DFS maze (the `gen_dfs` call on the same resolved start and stream) is
still open after the logical OR, and the recomputed `visited_cells`
(the walker's reachable set over the merged connectivity) contains every
cell of the DFS maze's `visited_cells` set. -/
theorem gen_dfs_percolation_monotone (rows cols : ℕ) (p : ℚ)
    (nAcc mtd : Option ℕ) (start : Option Coord) (g : RngI) (fs : RngF) :
    (∀ d r c,
      (gen_dfs rows cols nAcc mtd true
        (some (resolveStart rows cols start g).1)
        (resolveStart rows cols start g).2).cl d r c = true →
      (gen_dfs_percolation rows cols p nAcc mtd start g fs).cl d r c = true) ∧
    (∀ v ∈ ((gen_dfs rows cols nAcc mtd true
        (some (resolveStart rows cols start g).1)
        (resolveStart rows cols start g).2).visitedCells.getD ∅),
      v ∈ ((gen_dfs_percolation rows cols p nAcc mtd start g
        fs).visitedComponent.getD ∅)) := by
  constructor
  · intro d r c h
    simp only [gen_dfs_percolation]
    simp only [gen_dfs] at h ⊢
    rw [h]
    rfl
  · intro v hv
    simp only [gen_dfs, Option.getD_some] at hv
    simp only [gen_dfs_percolation, gen_dfs, Option.getD_some]
    have hreach := (dfsRun_reachInv
      ⟨rows, cols, nAcc.getD (rows * cols), mtd.getD (2 * (rows * cols)), true⟩
      (resolveStart rows cols start g).1
      (resolveStart rows cols start g).2).2 v hv
    refine reachableFrom_mono ?_ hreach
    intro d r c hc
    show ((dfsRun
        ⟨rows, cols, nAcc.getD (rows * cols), mtd.getD (2 * (rows * cols)), true⟩
        (resolveStart rows cols start g).1
        (resolveStart rows cols start g).2).cl d r c ||
      fillEdges rows cols (percRaw rows cols p fs) d r c) = true
    rw [hc]
    rfl

/-- C8 (witness): on a concrete 2×2 hybrid run the DFS maze opens the
edge below `(0, 0)`, and the theorem transports it to the merged maze. -/
theorem gen_dfs_percolation_monotone_witness :
    (gen_dfs_percolation 2 2 0 none none (some (0, 0)) (fun _ => 0)
      (fun _ => 1)).cl 0 0 0 = true :=
  (gen_dfs_percolation_monotone 2 2 0 none none (some (0, 0)) (fun _ => 0)
    (fun _ => 1)).1 0 0 0 (by decide)

/-! #### C7: the boundary-wall invariant -/

theorem bdInv_allFalse (rows cols : ℕ) :
    bdInv rows cols (fun _ _ _ => false) :=
  ⟨fun _ _ => rfl, fun _ _ => rfl⟩

theorem bdInv_setCL0 {rows cols : ℕ} {cl : ConnList} (h : bdInv rows cols cl)
    {node : Coord} (hne : node.1 ≠ (rows : ℤ) - 1) :
    bdInv rows cols (setCL cl 0 node) := by
  obtain ⟨h0, h1⟩ := h
  constructor
  · intro c hc
    unfold setCL
    rw [if_neg]
    · exact h0 c hc
    · rintro ⟨-, he, -⟩
      exact hne he.symm
  · intro r hr
    unfold setCL
    rw [if_neg]
    · exact h1 r hr
    · rintro ⟨he, -, -⟩
      exact one_ne_zero he

theorem bdInv_setCL1 {rows cols : ℕ} {cl : ConnList} (h : bdInv rows cols cl)
    {node : Coord} (hne : node.2 ≠ (cols : ℤ) - 1) :
    bdInv rows cols (setCL cl 1 node) := by
  obtain ⟨h0, h1⟩ := h
  constructor
  · intro c hc
    unfold setCL
    rw [if_neg]
    · exact h0 c hc
    · rintro ⟨he, -, -⟩
      exact zero_ne_one he
  · intro r hr
    unfold setCL
    rw [if_neg]
    · exact h1 r hr
    · rintro ⟨-, -, he⟩
      exact hne he.symm

theorem dfsStep_bdInv (A : DfsArgs) (s : DfsState) (hg : dfsGuard A s)
    (hI : dfsBdInv A.rows A.cols s) : dfsBdInv A.rows A.cols (dfsStep A s) := by
  obtain ⟨hstackB, hcl⟩ := hI
  obtain ⟨cur, rest, hs, hcase⟩ := dfsStep_cases A s hg.1
  rcases hcase with ⟨_, hstep⟩ | ⟨chosen, delta, hmem, _, hstep⟩
  · rw [hstep]
    exact ⟨fun v hv => hstackB v (by rw [hs]; exact List.mem_cons_of_mem _ hv),
      hcl⟩
  · obtain ⟨hnv, hinb, he, hmask⟩ := mem_unvisitedNeighbors hmem
    have hcurB : inBounds A.rows A.cols cur :=
      hstackB cur (by rw [hs]; exact List.mem_cons_self _ _)
    rw [hstep]
    constructor
    · intro v hv
      rcases List.mem_cons.mp hv with rfl | hv2
      · exact hinb
      · by_cases hf : A.doForks = true
        · rw [if_pos hf] at hv2
          rcases List.mem_cons.mp hv2 with rfl | hv3
          · exact hcurB
          · exact hstackB v (by rw [hs]; exact List.mem_cons_of_mem _ hv3)
        · rw [if_neg hf] at hv2
          exact hstackB v (by rw [hs]; exact List.mem_cons_of_mem _ hv2)
    · have hcases : delta = ((1 : ℤ), (0 : ℤ)) ∨ delta = (-1, 0) ∨
          delta = (0, 1) ∨ delta = (0, -1) := by
        simpa [NEIGHBORS_MASK] using hmask
      have he2 : chosen = cur + delta := he
      have hinb2 : inBounds A.rows A.cols chosen := hinb
      subst he2
      obtain ⟨hb1, hb2, hb3, hb4⟩ := hcurB
      rcases hcases with h | h | h | h <;> subst h
      · show bdInv A.rows A.cols (setCL s.cl 0 cur)
        refine bdInv_setCL0 hcl ?_
        have h1 : cur.1 + 1 < (A.rows : ℤ) := hinb2.2.1
        omega
      · show bdInv A.rows A.cols (setCL s.cl 0 (cur + (-1, 0)))
        refine bdInv_setCL0 hcl ?_
        show cur.1 + -1 ≠ (A.rows : ℤ) - 1
        omega
      · show bdInv A.rows A.cols (setCL s.cl 1 cur)
        refine bdInv_setCL1 hcl ?_
        have h1 : cur.2 + 1 < (A.cols : ℤ) := hinb2.2.2.2
        omega
      · show bdInv A.rows A.cols (setCL s.cl 1 (cur + (0, -1)))
        refine bdInv_setCL1 hcl ?_
        show cur.2 + -1 ≠ (A.cols : ℤ) - 1
        omega

theorem gen_dfs_bdInv (rows cols : ℕ) (nAcc mtd : Option ℕ)
    (doForks : Bool) (start : Option Coord) (g : RngI)
    (hs : inBounds rows cols (resolveStart rows cols start g).1) :
    bdInv rows cols (gen_dfs rows cols nAcc mtd doForks start g).cl := by
  have h := dfsRun_inv
    ⟨rows, cols, nAcc.getD (rows * cols), mtd.getD (2 * (rows * cols)), doForks⟩
    (dfsBdInv rows cols) (fun s hg hI => dfsStep_bdInv _ s hg hI)
    (resolveStart rows cols start g).1 (resolveStart rows cols start g).2
    ⟨by
      intro v hv
      simp only [dfsInit, List.mem_singleton] at hv
      subst hv
      exact hs, bdInv_allFalse rows cols⟩
  exact h.2

theorem wneighbor_inBounds {rows cols : ℕ} {cur : Coord} {dir : ℕ} {c : Coord}
    (h : wneighbor rows cols cur dir = some c) : inBounds rows cols c := by
  unfold wneighbor at h
  split_ifs at h with hd0 hd1 hd2 hd3
  · simp only [Option.ite_none_right_eq_some, Option.some.injEq] at h
    exact h.2 ▸ h.1
  · simp only [Option.ite_none_right_eq_some, Option.some.injEq] at h
    exact h.2 ▸ h.1
  · simp only [Option.ite_none_right_eq_some, Option.some.injEq] at h
    exact h.2 ▸ h.1
  · simp only [Option.ite_none_right_eq_some, Option.some.injEq] at h
    exact h.2 ▸ h.1

theorem wneighbor_shape {rows cols : ℕ} {cur : Coord} {dir : ℕ} {c : Coord}
    (h : wneighbor rows cols cur dir = some c) :
    (dir = 0 ∧ c = (cur.1, cur.2 - 1)) ∨ (dir = 1 ∧ c = (cur.1, cur.2 + 1)) ∨
    (dir = 2 ∧ c = (cur.1 - 1, cur.2)) ∨ (dir = 3 ∧ c = (cur.1 + 1, cur.2)) := by
  unfold wneighbor at h
  split_ifs at h with hd0 hd1 hd2 hd3
  · simp only [Option.ite_none_right_eq_some, Option.some.injEq] at h
    exact Or.inl ⟨hd0, h.2.symm⟩
  · simp only [Option.ite_none_right_eq_some, Option.some.injEq] at h
    exact Or.inr (Or.inl ⟨hd1, h.2.symm⟩)
  · simp only [Option.ite_none_right_eq_some, Option.some.injEq] at h
    exact Or.inr (Or.inr (Or.inl ⟨hd2, h.2.symm⟩))
  · simp only [Option.ite_none_right_eq_some, Option.some.injEq] at h
    exact Or.inr (Or.inr (Or.inr ⟨hd3, h.2.symm⟩))

theorem pickUnconnected_inBounds (rows cols : ℕ) (conn : Coord → Bool)
    (hr : 0 < rows) (hc : 0 < cols) :
    ∀ fuel g out, pickUnconnected rows cols conn fuel g = some out →
      inBounds rows cols out.1 := by
  intro fuel
  induction fuel with
  | zero => intro g out h; simp [pickUnconnected] at h
  | succ n ih =>
    intro g out h
    rw [pickUnconnected] at h
    split_ifs at h with hcp
    · exact ih _ _ h
    · injection h with h2
      rw [← h2]
      refine ⟨Int.ofNat_nonneg _, ?_, Int.ofNat_nonneg _, ?_⟩
      · show ((g 0 % rows : ℕ) : ℤ) < (rows : ℤ)
        exact_mod_cast Nat.mod_lt _ hr
      · show ((g 1 % cols : ℕ) : ℤ) < (cols : ℤ)
        exact_mod_cast Nat.mod_lt _ hc

/-- Opening the edge the retrace records for direction `d` preserves the
boundary invariant, given the current cell is in-bounds and the step
stays in the grid. -/
theorem wilsonStep_bdInv {rows cols : ℕ} {cl : ConnList} {cur nxt : Coord}
    {d : ℕ} (hinv : bdInv rows cols cl) (hcur : inBounds rows cols cur)
    (hw : wneighbor rows cols cur d = some nxt) :
    bdInv rows cols
      (if d = 0 then setCL cl 1 nxt
       else if d = 1 then setCL cl 1 cur
       else if d = 2 then setCL cl 0 nxt
       else if d = 3 then setCL cl 0 cur
       else cl) := by
  obtain ⟨hcu1, hcu2, hcu3, hcu4⟩ := hcur
  have hnb := wneighbor_inBounds hw
  rcases wneighbor_shape hw with ⟨hd, hn⟩ | ⟨hd, hn⟩ | ⟨hd, hn⟩ | ⟨hd, hn⟩ <;>
    subst hd <;> subst hn
  · show bdInv rows cols (setCL cl 1 (cur.1, cur.2 - 1))
    refine bdInv_setCL1 hinv ?_
    show cur.2 - 1 ≠ (cols : ℤ) - 1
    omega
  · show bdInv rows cols (setCL cl 1 cur)
    refine bdInv_setCL1 hinv ?_
    have h1 : cur.2 + 1 < (cols : ℤ) := hnb.2.2.2
    omega
  · show bdInv rows cols (setCL cl 0 (cur.1 - 1, cur.2))
    refine bdInv_setCL0 hinv ?_
    show cur.1 - 1 ≠ (rows : ℤ) - 1
    omega
  · show bdInv rows cols (setCL cl 0 cur)
    refine bdInv_setCL0 hinv ?_
    have h1 : cur.1 + 1 < (rows : ℤ) := hnb.2.1
    omega

theorem wilsonRetrace_bdInv (rows cols : ℕ) (dm : Coord → ℕ) :
    ∀ fuel conn cl cellsLeft cur out,
      wilsonRetrace rows cols dm fuel conn cl cellsLeft cur = some out →
      inBounds rows cols cur → bdInv rows cols cl →
      bdInv rows cols out.2.1 := by
  intro fuel
  induction fuel with
  | zero =>
    intro conn cl cellsLeft cur out h _ _
    simp [wilsonRetrace] at h
  | succ n ih =>
    intro conn cl cellsLeft cur out h hcur hinv
    rw [wilsonRetrace] at h
    by_cases hconn : conn cur = true
    · rw [if_pos hconn] at h
      injection h with h2
      rw [← h2]
      exact hinv
    · rw [if_neg hconn] at h
      cases hw : wneighbor rows cols cur (dm cur) with
      | none =>
        simp only [hw] at h
        injection h with h2
        rw [← h2]
        exact hinv
      | some nxt =>
        simp only [hw] at h
        exact ih _ _ _ _ _ h (wneighbor_inBounds hw)
          (wilsonStep_bdInv hinv hcur hw)

theorem wilsonIter_bdInv (rows cols fuel : ℕ) (st out : WilsonState)
    (hr : 0 < rows) (hc : 0 < cols) (hinv : bdInv rows cols st.cl)
    (h : wilsonIter rows cols fuel st = some out) :
    bdInv rows cols out.cl := by
  unfold wilsonIter at h
  cases hp : pickUnconnected rows cols st.conn fuel st.rng with
  | none =>
    simp only [hp] at h
    exact Option.noConfusion h
  | some sg =>
    simp only [hp] at h
    cases hwk : wilsonWalk rows cols st.conn fuel ∅ st.dm sg.1 sg.2 with
    | none =>
      simp only [hwk] at h
      exact Option.noConfusion h
    | some w =>
      simp only [hwk] at h
      cases hrt : wilsonRetrace rows cols
          (fun v => if v = w.2.1 then 4 else w.1 v) fuel st.conn st.cl
          st.cellsLeft sg.1 with
      | none =>
        simp only [hrt] at h
        exact Option.noConfusion h
      | some r =>
        simp only [hrt] at h
        injection h with h2
        rw [← h2]
        exact wilsonRetrace_bdInv rows cols _ fuel _ _ _ _ _ hrt
          (pickUnconnected_inBounds rows cols st.conn hr hc fuel st.rng sg hp)
          hinv

theorem wilsonOuter_bdInv (rows cols fuel : ℕ) (hr : 0 < rows)
    (hc : 0 < cols) :
    ∀ n st out, wilsonOuter rows cols fuel n st = some out →
      bdInv rows cols st.cl → bdInv rows cols out.cl := by
  intro n
  induction n with
  | zero => intro st out h _; simp [wilsonOuter] at h
  | succ m ih =>
    intro st out h hinv
    rw [wilsonOuter] at h
    split_ifs at h with hcl
    · injection h with h2
      rw [← h2]
      exact hinv
    · cases hit : wilsonIter rows cols fuel st with
      | none =>
        simp only [hit] at h
        exact Option.noConfusion h
      | some st2 =>
        simp only [hit] at h
        exact ih st2 out h (wilsonIter_bdInv rows cols fuel st st2 hr hc hinv hit)

/-- C7: the boundary-wall invariant holds for every generator's output:
`connection_list[0, rows-1, c]` and `connection_list[1, r, cols-1]` are
`False` everywhere, for `gen_dfs` (given an in-bounds resolved start
coordinate — the coordinate data model of §3), for every maze
`gen_wilson` returns, for every maze `gen_percolation` accepts `p` and
returns, and for `gen_dfs_percolation`. -/
theorem boundary_invariant_all_generators (rows cols : ℕ)
    (hr : 0 < rows) (hc : 0 < cols) :
    (∀ (nAcc mtd : Option ℕ) (doForks : Bool) (start : Option Coord)
      (g : RngI), inBounds rows cols (resolveStart rows cols start g).1 →
      bdInv rows cols (gen_dfs rows cols nAcc mtd doForks start g).cl) ∧
    (∀ (fuel : ℕ) (g : RngI) (m : LatticeMaze),
      gen_wilson rows cols fuel g = some m → bdInv rows cols m.cl) ∧
    (∀ (p : ℚ) (start : Option Coord) (g : RngI) (fs : RngF)
      (m : LatticeMaze), gen_percolation rows cols p start g fs = .ok m →
      bdInv rows cols m.cl) ∧
    (∀ (p : ℚ) (nAcc mtd : Option ℕ) (start : Option Coord) (g : RngI)
      (fs : RngF),
      inBounds rows cols (resolveStart rows cols start g).1 →
      bdInv rows cols (gen_dfs_percolation rows cols p nAcc mtd start g fs).cl) := by
  have hfill : ∀ cl : ConnList, bdInv rows cols (fillEdges rows cols cl) := by
    intro cl
    constructor
    · intro c hcb
      unfold fillEdges
      rw [if_pos (Or.inl ⟨rfl, rfl⟩)]
    · intro r hrb
      unfold fillEdges
      rw [if_pos (Or.inr ⟨rfl, rfl⟩)]
  refine ⟨?_, ?_, ?_, ?_⟩
  · intro nAcc mtd doForks start g hs
    exact gen_dfs_bdInv rows cols nAcc mtd doForks start g hs
  · intro fuel g m h
    simp only [gen_wilson] at h
    cases hw : wilsonOuter rows cols fuel fuel (wilsonInitState rows cols g) with
    | none => rw [hw] at h; exact absurd h (by simp)
    | some fin =>
      rw [hw] at h
      injection h with h2
      rw [← h2]
      exact wilsonOuter_bdInv rows cols fuel hr hc fuel _ fin hw
        (bdInv_allFalse rows cols)
  · intro p start g fs m h
    unfold gen_percolation at h
    split_ifs at h with hp
    injection h with h2
    rw [← h2]
    exact hfill _
  · intro p nAcc mtd start g fs hs
    have hdfs := gen_dfs_bdInv rows cols nAcc mtd true (some
      (resolveStart rows cols start g).1) (resolveStart rows cols start g).2
      hs
    have hperc := hfill (percRaw rows cols p fs)
    constructor
    · intro c hcb
      show ((gen_dfs rows cols nAcc mtd true
          (some (resolveStart rows cols start g).1)
          (resolveStart rows cols start g).2).cl 0 ((rows : ℤ) - 1) c ||
        fillEdges rows cols (percRaw rows cols p fs) 0 ((rows : ℤ) - 1) c) =
          false
      rw [hdfs.1 c hcb, hperc.1 c hcb]
      rfl
    · intro r hrb
      show ((gen_dfs rows cols nAcc mtd true
          (some (resolveStart rows cols start g).1)
          (resolveStart rows cols start g).2).cl 1 (r : ℤ) ((cols : ℤ) - 1) ||
        fillEdges rows cols (percRaw rows cols p fs) 1 (r : ℤ)
          ((cols : ℤ) - 1)) = false
      rw [hdfs.2 r hrb, hperc.2 r hrb]
      rfl

/-- C7 (witness): the boundary invariant instantiated on a concrete 2×2
`gen_dfs` run with the default random start. -/
theorem boundary_invariant_witness :
    bdInv 2 2 (gen_dfs 2 2 none none true none (fun _ => 0)).cl :=
  (boundary_invariant_all_generators 2 2 (by norm_num) (by norm_num)).1
    none none true none (fun _ => 0) (by decide)

/-! #### C9: the visited-cell count -/

theorem mem_gridCells_of_inBounds {rows cols : ℕ} {v : Coord}
    (h : inBounds rows cols v) : v ∈ gridCells rows cols := by
  obtain ⟨h1, h2, h3, h4⟩ := h
  unfold gridCells
  rw [Finset.mem_image]
  refine ⟨(v.1.toNat, v.2.toNat), ?_, ?_⟩
  · rw [Finset.mem_product]
    constructor <;> rw [Finset.mem_range] <;> omega
  · refine Prod.ext_iff.mpr ⟨?_, ?_⟩
    · show ((v.1.toNat : ℤ)) = v.1
      exact Int.toNat_of_nonneg h1
    · show ((v.2.toNat : ℤ)) = v.2
      exact Int.toNat_of_nonneg h3

theorem card_le_grid {rows cols : ℕ} {start : Coord} {S : Finset Coord}
    (h : S ⊆ insert start (gridCells rows cols)) :
    S.card ≤ rows * cols + 1 := by
  have h1 := Finset.card_le_card h
  have h2 := Finset.card_insert_le start (gridCells rows cols)
  have h3 : (gridCells rows cols).card ≤ rows * cols := by
    unfold gridCells
    calc ((Finset.range rows ×ˢ Finset.range cols).image _).card
        ≤ (Finset.range rows ×ˢ Finset.range cols).card :=
          Finset.card_image_le
      _ = rows * cols := by
          rw [Finset.card_product, Finset.card_range, Finset.card_range]
  omega

/-- The loop body never reads `n_accessible_cells`: only the guard
does. -/
theorem dfsStep_nAcc_irrel (rows cols mtd : ℕ) (doForks : Bool)
    (k k2 : ℕ) (s : DfsState) :
    dfsStep ⟨rows, cols, k, mtd, doForks⟩ s =
      dfsStep ⟨rows, cols, k2, mtd, doForks⟩ s := rfl

theorem dfsStep_card_le (A : DfsArgs) (s : DfsState) :
    (dfsStep A s).visited.card ≤ s.visited.card + 1 := by
  by_cases hg : s.stack = []
  · unfold dfsStep
    rw [hg]
    show s.visited.card ≤ s.visited.card + 1
    omega
  · obtain ⟨cur, rest, hs, hcase⟩ := dfsStep_cases A s hg
    rcases hcase with ⟨-, hstep⟩ | ⟨chosen, delta, hmem, -, hstep⟩
    · rw [hstep]
      show s.visited.card ≤ s.visited.card + 1
      omega
    · rw [hstep]
      show (insert chosen s.visited).card ≤ s.visited.card + 1
      exact Finset.card_insert_le _ _

theorem dfsStep_visited_sub (A : DfsArgs) (s : DfsState) :
    (dfsStep A s).visited ⊆ s.visited ∪ gridCells A.rows A.cols := by
  by_cases hg : s.stack = []
  · unfold dfsStep
    rw [hg]
    exact Finset.subset_union_left
  · obtain ⟨cur, rest, hs, hcase⟩ := dfsStep_cases A s hg
    rcases hcase with ⟨-, hstep⟩ | ⟨chosen, delta, hmem, -, hstep⟩
    · rw [hstep]
      show s.visited ⊆ s.visited ∪ gridCells A.rows A.cols
      exact Finset.subset_union_left
    · rw [hstep]
      show insert chosen s.visited ⊆ s.visited ∪ gridCells A.rows A.cols
      intro v hv
      rcases Finset.mem_insert.mp hv with rfl | hv2
      · exact Finset.mem_union_right _
          (mem_gridCells_of_inBounds (mem_unvisitedNeighbors hmem).2.1)
      · exact Finset.mem_union_left _ hv2

/-- Cutoff simulation: the run bounded by `n_accessible_cells = k`
visits exactly `min k` of what the same run without the cell-count
cutoff (`n_accessible_cells = rows*cols + 2`, a bound the guard can
never reach) visits. -/
theorem dfsLoop_cutoff (rows cols mtd : ℕ) (doForks : Bool) (k : ℕ)
    (start : Coord) :
    ∀ fuel fuel2 (s t t2 : DfsState),
      s.visited.card ≤ k →
      s.visited ⊆ insert start (gridCells rows cols) →
      dfsLoop ⟨rows, cols, k, mtd, doForks⟩ fuel s = some t →
      dfsLoop ⟨rows, cols, rows * cols + 2, mtd, doForks⟩ fuel2 s = some t2 →
      t.visited.card = min k t2.visited.card := by
  intro fuel
  induction fuel with
  | zero =>
    intro fuel2 s t t2 _ _ h1 _
    simp [dfsLoop] at h1
  | succ n ih =>
    intro fuel2 s t t2 hcard hsub h1 h2
    rw [dfsLoop] at h1
    by_cases hguard : dfsGuard ⟨rows, cols, k, mtd, doForks⟩ s
    · rw [if_pos hguard] at h1
      have hguard2 : dfsGuard ⟨rows, cols, rows * cols + 2, mtd, doForks⟩ s := by
        refine ⟨hguard.1, ?_⟩
        have hb := card_le_grid hsub
        show s.visited.card < rows * cols + 2
        omega
      match fuel2 with
      | 0 => simp [dfsLoop] at h2
      | m + 1 =>
        rw [dfsLoop, if_pos hguard2,
          dfsStep_nAcc_irrel rows cols mtd doForks (rows * cols + 2) k] at h2
        refine ih m _ t t2 ?_ ?_ h1 h2
        · have hle := dfsStep_card_le ⟨rows, cols, k, mtd, doForks⟩ s
          have hlt : s.visited.card < k := hguard.2
          omega
        · have hsub2 := dfsStep_visited_sub ⟨rows, cols, k, mtd, doForks⟩ s
          intro v hv
          rcases Finset.mem_union.mp (hsub2 hv) with hv1 | hv2
          · exact hsub hv1
          · exact Finset.mem_insert_of_mem hv2
    · rw [if_neg hguard] at h1
      injection h1 with h1e
      subst h1e
      have hor : s.stack = [] ∨ k ≤ s.visited.card := by
        by_cases hst : s.stack = []
        · exact Or.inl hst
        · right
          by_contra hlt
          refine hguard ⟨hst, ?_⟩
          show s.visited.card < k
          omega
      rcases hor with hst | hge
      · have h2e : t2 = s := by
          match fuel2 with
          | 0 => simp [dfsLoop] at h2
          | m + 1 =>
            rw [dfsLoop, if_neg (fun hg2 => hg2.1 hst)] at h2
            injection h2 with h2e
            exact h2e.symm
        rw [h2e]
        omega
      · have hmono := dfsLoop_visited_mono
          ⟨rows, cols, rows * cols + 2, mtd, doForks⟩ fuel2 s t2 h2
        have hcard2 : k ≤ t2.visited.card := by
          have := Finset.card_le_card hmono
          omega
        omega

/-- C9 (counterexample): with `n_accessible_cells = 0`, the visited set
already holds the start cell before the guard is first checked, so the
returned metadata has `len(visited_cells) = 1 > 0 = n_accessible_cells`,
contradicting both the "never exceeds" and the `min` clauses of the
claim. -/
theorem gen_dfs_nAcc_zero_counterexample :
    ((gen_dfs 2 2 (some 0) none true (some (0, 0))
      (fun _ => 0)).visitedCells.getD ∅).card = 1 ∧
    (gen_dfs 2 2 (some 0) none true (some (0, 0))
      (fun _ => 0)).nAccessibleCells = some 0 := by
  constructor
  · decide
  · rfl

/-- C9 (amended): for every `gen_dfs` call with `n_accessible_cells =
k ≥ 1` (the default, the total cell count of a non-empty grid, included):
the visited set never exceeds `k` cells; its size equals
`min k` (size visited by the identical run without the cell-count bound,
here `n_accessible_cells = rows*cols + 2`, which the guard can never
reach — the formalization of "cells reachable within the depth bound");
and `fully_connected` is recorded exactly when the size equals `k`. -/
theorem gen_dfs_visited_card (rows cols : ℕ) (k : ℕ) (hk : 1 ≤ k)
    (mtd : Option ℕ) (doForks : Bool) (start : Option Coord) (g : RngI) :
    (((gen_dfs rows cols (some k) mtd doForks start g).visitedCells.getD
      ∅).card ≤ k) ∧
    (((gen_dfs rows cols (some k) mtd doForks start g).visitedCells.getD
      ∅).card = min k
      (((gen_dfs rows cols (some (rows * cols + 2)) mtd doForks start
        g).visitedCells.getD ∅).card)) ∧
    ((gen_dfs rows cols (some k) mtd doForks start g).fullyConnected =
      some true ↔
      (((gen_dfs rows cols (some k) mtd doForks start g).visitedCells.getD
        ∅).card = k)) := by
  have h1 := dfsRun_eq
    ⟨rows, cols, k, mtd.getD (2 * (rows * cols)), doForks⟩
    (resolveStart rows cols start g).1 (resolveStart rows cols start g).2
  have h2 := dfsRun_eq
    ⟨rows, cols, rows * cols + 2, mtd.getD (2 * (rows * cols)), doForks⟩
    (resolveStart rows cols start g).1 (resolveStart rows cols start g).2
  have hmin := dfsLoop_cutoff rows cols (mtd.getD (2 * (rows * cols)))
    doForks k (resolveStart rows cols start g).1 _ _ _ _ _
    (by
      show ({(resolveStart rows cols start g).1} : Finset Coord).card ≤ k
      rw [Finset.card_singleton]
      omega)
    (by
      intro v hv
      show v ∈ insert (resolveStart rows cols start g).1
        (gridCells rows cols)
      have hv2 : v = (resolveStart rows cols start g).1 :=
        Finset.mem_singleton.mp hv
      rw [hv2]
      exact Finset.mem_insert_self _ _)
    h1 h2
  refine ⟨?_, ?_, ?_⟩
  · show (dfsRun ⟨rows, cols, k, mtd.getD (2 * (rows * cols)), doForks⟩
      (resolveStart rows cols start g).1
      (resolveStart rows cols start g).2).visited.card ≤ k
    omega
  · exact hmin
  · constructor
    · intro hfc
      have hd := Option.some.inj hfc
      exact of_decide_eq_true hd
    · intro hceq
      have hceq2 : (dfsRun
          ⟨rows, cols, k, mtd.getD (2 * (rows * cols)), doForks⟩
          (resolveStart rows cols start g).1
          (resolveStart rows cols start g).2).visited.card = k := hceq
      show some (decide ((dfsRun
          ⟨rows, cols, k, mtd.getD (2 * (rows * cols)), doForks⟩
          (resolveStart rows cols start g).1
          (resolveStart rows cols start g).2).visited.card = k)) = some true
      rw [decide_eq_true hceq2]

/-- C9 (witness): the amended statement instantiated on a concrete 2×2
run with `n_accessible_cells = 2`. -/
theorem gen_dfs_visited_card_witness :
    (((gen_dfs 2 2 (some 2) none true (some (0, 0))
      (fun _ => 0)).visitedCells.getD ∅).card ≤ 2) ∧
    (((gen_dfs 2 2 (some 2) none true (some (0, 0))
      (fun _ => 0)).visitedCells.getD ∅).card = min 2
      (((gen_dfs 2 2 (some (2 * 2 + 2)) none true (some (0, 0))
        (fun _ => 0)).visitedCells.getD ∅).card)) ∧
    ((gen_dfs 2 2 (some 2) none true (some (0, 0))
      (fun _ => 0)).fullyConnected = some true ↔
      (((gen_dfs 2 2 (some 2) none true (some (0, 0))
        (fun _ => 0)).visitedCells.getD ∅).card = 2)) :=
  gen_dfs_visited_card 2 2 2 (by norm_num) none true (some (0, 0))
    (fun _ => 0)

/-- C10: `gen_dfs` terminates on every input: with the fuel `gen_dfs`
supplies (`dfsFuel`, one more than the termination measure), the main
loop returns a final state from every starting state, because each
iteration either adds one newly visited cell or strictly shrinks the
stack (`dmeasure_dfsStep`). -/
theorem gen_dfs_terminates (A : DfsArgs) (s : DfsState) :
    (dfsLoop A (dfsFuel A s) s).isSome = true :=
  dfsLoop_isSome A (dfsFuel A s) s (by unfold dfsFuel; omega)

/-! #### C5: malformed grid shapes -/

/-- C5 (counterexample): the claim says a non-positive grid dimension
raises an invalid-parameter error before any array allocation and no
`LatticeMaze` value is returned. On `grid_shape = (0, 3)` the source
checks nothing, allocates its (empty) arrays and returns a maze value,
whose metadata records `fully_connected = False`. -/
theorem gen_dfs_zero_dim_counterexample :
    (gen_dfs 0 3 none none true none (fun _ => 0)).funcName = "gen_dfs" ∧
    (gen_dfs 0 3 none none true none (fun _ => 0)).fullyConnected =
      some false := by
  constructor
  · rfl
  · rfl

/-- C5 (amended): no generator validates `grid_shape`. On a grid with a
zero dimension, `gen_dfs` raises no error: with the default
`n_accessible_cells` (the total cell count, 0) the loop guard fails at
once and a `LatticeMaze` with an all-`False` connection list and
`fully_connected = False` is returned. -/
theorem gen_dfs_zero_dim_returns (cols : ℕ) (mtd : Option ℕ)
    (doForks : Bool) (start : Option Coord) (g : RngI) :
    (gen_dfs 0 cols none mtd doForks start g).funcName = "gen_dfs" ∧
    (gen_dfs 0 cols none mtd doForks start g).fullyConnected = some false ∧
    ∀ d r c, (gen_dfs 0 cols none mtd doForks start g).cl d r c = false := by
  have hng : ∀ (st : Coord) (g2 : RngI),
      ¬ dfsGuard ⟨0, cols, (none : Option ℕ).getD (0 * cols),
        mtd.getD (2 * (0 * cols)), doForks⟩ (dfsInit st g2) := by
    intro st g2
    simp [dfsGuard, dfsInit]
  simp only [gen_dfs]
  rw [dfsRun_of_not_guard _ _ _ (hng _ _)]
  simp [dfsInit]

/-! #### C4: percolation probability validation -/

/-- C4 (counterexample): the claim says every generator taking a
percolation probability raises an invalid-argument error for `p` outside
`[0, 1]`. With `p = 2`, `gen_dfs_percolation` raises nothing: it returns
a maze value, and (float draws all 0, so `0 < 2` opens every in-range
entry) the merged connection list has the edge below `(0, 0)` open on a
2×2 grid. -/
theorem gen_dfs_percolation_no_validation :
    (gen_dfs_percolation 2 2 2 none none (some (0, 0)) (fun _ => 0)
      (fun _ => 0)).funcName = "gen_dfs_percolation" ∧
    (gen_dfs_percolation 2 2 2 none none (some (0, 0)) (fun _ => 0)
      (fun _ => 0)).cl 0 0 0 = true := by
  constructor
  · rfl
  · decide

/-- C4 (amended): `gen_percolation` rejects every `p` outside `[0, 1]`
with the invalid-argument error, before any connection list or maze
value is computed (the error branch is taken first, exactly as the
source asserts on entry); `gen_dfs_percolation` performs no validation
of `p` and returns a maze for every `p`. -/
theorem percolation_p_validation :
    (∀ (rows cols : ℕ) (p : ℚ) (start : Option Coord) (g : RngI)
      (fs : RngF), (p < 0 ∨ 1 < p) →
      gen_percolation rows cols p start g fs =
        Except.error "p must be between 0 and 1") ∧
    (∀ (rows cols : ℕ) (p : ℚ) (nAcc mtd : Option ℕ)
      (start : Option Coord) (g : RngI) (fs : RngF),
      (gen_dfs_percolation rows cols p nAcc mtd start g fs).funcName =
        "gen_dfs_percolation" ∧
      (gen_dfs_percolation rows cols p nAcc mtd start g fs).percolationP =
        some p) := by
  constructor
  · intro rows cols p start g fs hp
    have hnp : ¬ (0 ≤ p ∧ p ≤ 1) := by
      intro hand
      rcases hp with hp | hp
      · linarith [hand.1]
      · linarith [hand.2]
    unfold gen_percolation
    rw [if_neg hnp]
  · intro rows cols p nAcc mtd start g fs
    exact ⟨rfl, rfl⟩

/-- C4 (witness): concrete instance of the amended claim at `p = 2`. -/
theorem percolation_p_validation_witness :
    gen_percolation 2 2 2 none (fun _ => 0) (fun _ => 0) =
      Except.error "p must be between 0 and 1" :=
  percolation_p_validation.1 2 2 2 none (fun _ => 0) (fun _ => 0)
    (Or.inr (by norm_num))

/-! #### C1 and C2: the Wilson loop-detection defect -/

/-- C1: evaluation of `gen_wilson` on the 2×2 grid with
`wilsonBugStream`. The first walk revisits its own start, so the code
breaks out, writes the sentinel at the unconnected cell `(1, 1)` and the
retrace marks `(1, 1)` connected without attaching it to anything. The
returned maze records `fully_connected = True` but has only 2 open
edges, not `rows*cols - 1 = 3`: the open edges are exactly
`(0,0)-(1,0)` and `(0,1)-(1,1)`, leaving two separate components. This
contradicts the claim (and the docstring's "all cells are part of a
unique connected space"). -/
theorem gen_wilson_disconnected_run :
    ((gen_wilson 2 2 20 wilsonBugStream).map
      (fun m => (m.fullyConnected, openEdgeCount 2 2 m.cl,
        m.cl 0 0 0, m.cl 0 0 1, m.cl 1 0 0, m.cl 1 1 0))) =
      some (some true, 2, true, true, false, false) ∧ 2 * 2 - 1 = 3 := by
  constructor
  · decide
  · decide

/-- C2: the first walk of the same run stops at `(1, 1)` — a cell that
is *not* connected (only the seed `(0, 0)` is) — because it revisited a
cell of the current walk; line 217 then writes the terminal sentinel 4
there. After this outer-loop iteration both `(0, 0)` and `(1, 1)` are
marked connected while no edge at all is open, so the connected cells
form two components, not one. -/
theorem gen_wilson_sentinel_at_unconnected :
    ((wilsonWalk 2 2 wilsonSeedState.conn 20 ∅ (fun _ => 0) (1, 1)
        (rngTail2 (rngTail2 wilsonBugStream))).map (fun w => w.2.1)) =
      some ((1 : ℤ), (1 : ℤ)) ∧
    wilsonSeedState.conn (1, 1) = false ∧
    ((wilsonIter 2 2 20 wilsonSeedState).map
      (fun st => (st.conn (0, 0), st.conn (1, 1), st.dm (1, 1),
        openEdgeCount 2 2 st.cl))) = some (true, true, 4, 0) ∧
    (((0 : ℤ), (0 : ℤ)) : Coord) ≠ ((1 : ℤ), (1 : ℤ)) := by
  refine ⟨by decide, by decide, by decide, by decide⟩

/-- C3: the claim says the default start coordinate is uniform over all
in-bounds cells. In the source the numpy upper bound `max(dim-1, 1)` is
exclusive, so on a 3×3 grid the drawn row and column are always `< 2`:
the in-bounds cell `(2, 2)` (and any cell in row 2 or column 2) is drawn
with probability zero, refuting the claim. -/
theorem random_start_coord_misses_last_row_col :
    ∀ g : RngI,
      (randomStartCoord 3 3 g).1 < 2 ∧ (randomStartCoord 3 3 g).2 < 2 ∧
      randomStartCoord 3 3 g ≠ ((2 : ℤ), (2 : ℤ)) ∧ inBounds 3 3 (2, 2) := by
  intro g
  have h1 : g 0 % max (3 - 1) 1 < 2 := Nat.mod_lt _ (by norm_num)
  have h2 : g 1 % max (3 - 1) 1 < 2 := Nat.mod_lt _ (by norm_num)
  have hr : (randomStartCoord 3 3 g).1 < 2 := by
    simp only [randomStartCoord]; exact_mod_cast h1
  have hc : (randomStartCoord 3 3 g).2 < 2 := by
    simp only [randomStartCoord]; exact_mod_cast h2
  refine ⟨hr, hc, ?_, by norm_num [inBounds]⟩
  intro hcontra
  have : (randomStartCoord 3 3 g).1 = 2 := by rw [hcontra]
  omega

end MazeGen
